import Mathlib

/-!
A verification development for `odin-hash-map`.

Shallow embedding of `src/node.js`, `src/linked-list.js` and `src/hash-map.js`.

Modelling conventions:

* A JavaScript object reference to a `Node` is a natural number: the position of the node in
  the store (`LinkedList.nodes`) of the list that allocated it. `null` is `none`. Nodes are only
  ever allocated by `LinkedList.set` and are never shared between lists, so every list carries its
  own store; `new Node(..)` appends to it.
* Every function that contains a `while` loop is a recursive function over a step budget. The
  public list operations run their loop with budget `nodes.length` (a loop over an acyclic chain
  visits every allocated node at most once). The result `none` means that the JavaScript call has
  no result: the budget was exhausted, or a property of `null` / `undefined` was accessed
  (a `TypeError`). Theorems about reachable states prove that the result is `some _`.
* `HashMap.set` and `HashMap.#resize` are mutually recursive in the source. `HashMap.set` takes
  the permitted nesting depth of `set` calls as its first argument.
* Keys and values are strings. `key.length` and `key.charCodeAt(i)` are read off the UTF-16 code
  units of the key (`charCodes`).
* `Reachable` collects the tables that `new HashMap()` can become under `set`, `remove` and
  `clear` calls that return. The predicates `Chain`, `LinkedList.Repr`, `HashMap.Inv` and
  `HashMap.Clean` describe what such a table looks like; they are used in proofs only.
* `Method`, `Answer`, `HashMap.invoke` and `HashMap.trace` describe sequences of calls of the
  public methods together with the values they return.
* The counters `#size` are integers (`Int`), capacities are natural numbers. All numbers that
  occur stay far below `2 ^ 53`, where JavaScript number arithmetic is exact. The test
  `size > capacity * 0.75` is written `3 * capacity < 4 * size`.
-/

namespace OdinHashMap

/-! ## `src/node.js` -/

/-- A `Node` object: the fields `#key`, `#value` and `#next` (a reference or `null`). -/
structure Node where
  key : String
  value : String
  next : Option Nat
  deriving DecidableEq

/-! ## `src/linked-list.js` -/

/-- A `LinkedList` object: the fields `#head`, `#tail`, `#size`, together with the store of all
`Node` objects the list has allocated (a reference is a position in `nodes`). -/
structure LinkedList where
  nodes : List Node
  head : Option Nat
  tail : Option Nat
  size : Int
  deriving DecidableEq

/-- The list built by `new LinkedList()`. -/
def LinkedList.empty : LinkedList :=
  { nodes := [], head := none, tail := none, size := 0 }

/-- The `while (current)` loop of `LinkedList.set`: `some (some nodes1)` when the key was found and
its node's value overwritten (the early `return`), `some none` when the loop ran off the end. -/
def LinkedList.setLoop (key value : String) (nodes : List Node) :
    Nat → Option Nat → Option (Option (List Node))
  | _, none => some none
  | 0, some _ => none
  | fuel + 1, some c =>
    match nodes[c]? with
    | none => none
    | some current =>
      if current.key = key then
        some (some (nodes.set c { current with value := value }))
      else
        LinkedList.setLoop key value nodes fuel current.next

/-- `LinkedList.set(key, value)`. -/
def LinkedList.set (l : LinkedList) (key value : String) : Option LinkedList :=
  match LinkedList.setLoop key value l.nodes l.nodes.length l.head with
  | none => none
  | some (some nodes1) => some { l with nodes := nodes1 }
  | some none =>
    let node : Node := { key := key, value := value, next := none }
    let ref := l.nodes.length
    match l.head with
    | none =>
      some { nodes := l.nodes ++ [node], head := some ref, tail := some ref, size := l.size + 1 }
    | some _ =>
      match l.tail with
      | none => none
      | some t =>
        match l.nodes[t]? with
        | none => none
        | some last =>
          some { nodes := l.nodes.set t { last with next := some ref } ++ [node]
                 head := l.head
                 tail := some ref
                 size := l.size + 1 }

/-- The constructor `new LinkedList(array)`. -/
def LinkedList.new (array : List (String × String)) : Option LinkedList :=
  array.foldlM (fun l kv => l.set kv.1 kv.2) LinkedList.empty

/-- The loop of `LinkedList.get`; the inner `none` is the result `null`. -/
def LinkedList.getLoop (key : String) (nodes : List Node) :
    Nat → Option Nat → Option (Option String)
  | _, none => some none
  | 0, some _ => none
  | fuel + 1, some c =>
    match nodes[c]? with
    | none => none
    | some current =>
      if current.key = key then some (some current.value)
      else LinkedList.getLoop key nodes fuel current.next

/-- `LinkedList.get(key)`. -/
def LinkedList.get (l : LinkedList) (key : String) : Option (Option String) :=
  LinkedList.getLoop key l.nodes l.nodes.length l.head

/-- The loop of `LinkedList.has`. -/
def LinkedList.hasLoop (key : String) (nodes : List Node) :
    Nat → Option Nat → Option Bool
  | _, none => some false
  | 0, some _ => none
  | fuel + 1, some c =>
    match nodes[c]? with
    | none => none
    | some current =>
      if current.key = key then some true
      else LinkedList.hasLoop key nodes fuel current.next

/-- `LinkedList.has(key)`. -/
def LinkedList.has (l : LinkedList) (key : String) : Option Bool :=
  LinkedList.hasLoop key l.nodes l.nodes.length l.head

/-- The loop of `LinkedList.remove`, with the loop variables `current` and `previous`. The result
is the list after the call and the returned boolean. Note that `#tail` is not assigned. -/
def LinkedList.removeLoop (l : LinkedList) (key : String) :
    Nat → Option Nat → Option Nat → Option (LinkedList × Bool)
  | _, none, _ => some (l, false)
  | 0, some _, _ => none
  | fuel + 1, some c, previous =>
    match l.nodes[c]? with
    | none => none
    | some current =>
      if current.key = key then
        match previous with
        | some p =>
          match l.nodes[p]? with
          | none => none
          | some prev =>
            some ({ l with nodes := l.nodes.set p { prev with next := current.next }
                           size := l.size - 1 }, true)
        | none => some ({ l with head := current.next, size := l.size - 1 }, true)
      else
        LinkedList.removeLoop l key fuel current.next (some c)

/-- `LinkedList.remove(key)`. -/
def LinkedList.remove (l : LinkedList) (key : String) : Option (LinkedList × Bool) :=
  LinkedList.removeLoop l key l.nodes.length l.head none

/-- The loop of `LinkedList.keys`, pushing onto the array `keys`. -/
def LinkedList.keysLoop (nodes : List Node) :
    Nat → Option Nat → List String → Option (List String)
  | _, none, keys => some keys
  | 0, some _, _ => none
  | fuel + 1, some c, keys =>
    match nodes[c]? with
    | none => none
    | some current => LinkedList.keysLoop nodes fuel current.next (keys ++ [current.key])

/-- `LinkedList.keys()`. -/
def LinkedList.keys (l : LinkedList) : Option (List String) :=
  LinkedList.keysLoop l.nodes l.nodes.length l.head []

/-- The loop of `LinkedList.values`. -/
def LinkedList.valuesLoop (nodes : List Node) :
    Nat → Option Nat → List String → Option (List String)
  | _, none, values => some values
  | 0, some _, _ => none
  | fuel + 1, some c, values =>
    match nodes[c]? with
    | none => none
    | some current => LinkedList.valuesLoop nodes fuel current.next (values ++ [current.value])

/-- `LinkedList.values()`. -/
def LinkedList.values (l : LinkedList) : Option (List String) :=
  LinkedList.valuesLoop l.nodes l.nodes.length l.head []

/-- The loop of `LinkedList.entries`; an entry `[key, value]` is a pair. -/
def LinkedList.entriesLoop (nodes : List Node) :
    Nat → Option Nat → List (String × String) → Option (List (String × String))
  | _, none, entries => some entries
  | 0, some _, _ => none
  | fuel + 1, some c, entries =>
    match nodes[c]? with
    | none => none
    | some current =>
      LinkedList.entriesLoop nodes fuel current.next (entries ++ [(current.key, current.value)])

/-- `LinkedList.entries()`. -/
def LinkedList.entries (l : LinkedList) : Option (List (String × String)) :=
  LinkedList.entriesLoop l.nodes l.nodes.length l.head []

/-! ## `src/hash-map.js` -/

/-- `DEFAULT_CAPACITY`. -/
def DEFAULT_CAPACITY : Nat := 16

/-- The UTF-16 code units of one character. -/
def utf16Units (c : Char) : List Nat :=
  if c.toNat < 65536 then [c.toNat]
  else [55296 + (c.toNat - 65536) / 1024, 56320 + (c.toNat - 65536) % 1024]

/-- The sequence `key.charCodeAt(0), …, key.charCodeAt(key.length - 1)`. -/
def charCodes (key : String) : List Nat :=
  (key.toList.map utf16Units).flatten

/-- A `HashMap` object: the fields `#buckets`, `#capacity` and `#size`. -/
structure HashMap where
  buckets : List LinkedList
  capacity : Nat
  size : Int
  deriving DecidableEq

/-- The table built by the field initialisers of `HashMap` (before the constructor body runs). -/
def HashMap.empty : HashMap :=
  { buckets := List.replicate DEFAULT_CAPACITY LinkedList.empty
    capacity := DEFAULT_CAPACITY
    size := 0 }

/-- `HashMap.#hash(key)`. The capacity of a table that can be reached is at least 16, so the
modulus is never zero. -/
def HashMap.hash (m : HashMap) (key : String) : Nat :=
  (charCodes key).foldl (fun hashCode code => (31 * hashCode + code) % m.capacity) 0

/-- The body of `HashMap.#resize`, with the method it calls for `this.set` as a parameter. -/
def HashMap.resizeWith (setter : HashMap → String → String → Option HashMap) (m : HashMap) :
    Option HashMap :=
  let oldBuckets := m.buckets
  let m1 : HashMap :=
    { buckets := List.replicate (m.capacity * 2) LinkedList.empty
      capacity := m.capacity * 2
      size := 0 }
  oldBuckets.foldlM
    (fun acc bucket =>
      match bucket.entries with
      | none => none
      | some entries => entries.foldlM (fun acc1 kv => setter acc1 kv.1 kv.2) acc)
    m1

/-- `HashMap.set(key, value)`. The first argument bounds the nesting depth of `set` calls
(`set` calls `#resize`, which calls `set`); depth `0` gives no result. -/
def HashMap.set : Nat → HashMap → String → String → Option HashMap
  | 0, _, _, _ => none
  | fuel + 1, m, key, value =>
    let hashCode := m.hash key
    match m.buckets[hashCode]? with
    | none => none
    | some bucket =>
      match bucket.has key with
      | none => none
      | some present =>
        let size1 := if present then m.size else m.size + 1
        match bucket.set key value with
        | none => none
        | some bucket1 =>
          let m1 : HashMap := { m with buckets := m.buckets.set hashCode bucket1, size := size1 }
          if 3 * (m1.capacity : Int) < 4 * m1.size then
            HashMap.resizeWith (HashMap.set fuel) m1
          else
            some m1

/-- `HashMap.#resize()`, whose `this.set` calls may nest `fuel` deep. -/
def HashMap.resize (fuel : Nat) (m : HashMap) : Option HashMap :=
  HashMap.resizeWith (HashMap.set fuel) m

/-- The constructor `new HashMap(array)`. -/
def HashMap.new (fuel : Nat) (array : List (String × String)) : Option HashMap :=
  array.foldlM (fun m kv => m.set fuel kv.1 kv.2) HashMap.empty

/-- `HashMap.get(key)`; the inner `none` is the result `null`. -/
def HashMap.get (m : HashMap) (key : String) : Option (Option String) :=
  match m.buckets[m.hash key]? with
  | none => none
  | some bucket => bucket.get key

/-- `HashMap.has(key)`. -/
def HashMap.has (m : HashMap) (key : String) : Option Bool :=
  match m.buckets[m.hash key]? with
  | none => none
  | some bucket => bucket.has key

/-- `HashMap.remove(key)`: the table after the call and the returned boolean. -/
def HashMap.remove (m : HashMap) (key : String) : Option (HashMap × Bool) :=
  let hashCode := m.hash key
  match m.buckets[hashCode]? with
  | none => none
  | some bucket =>
    match bucket.remove key with
    | none => none
    | some (bucket1, true) =>
      some ({ m with buckets := m.buckets.set hashCode bucket1, size := m.size - 1 }, true)
    | some (bucket1, false) =>
      some ({ m with buckets := m.buckets.set hashCode bucket1 }, false)

/-- `HashMap.length()`. -/
def HashMap.length (m : HashMap) : Int := m.size

/-- `HashMap.clear()`. The new bucket array is allocated with the capacity held before the call. -/
def HashMap.clear (m : HashMap) : HashMap :=
  { buckets := List.replicate m.capacity LinkedList.empty
    size := 0
    capacity := DEFAULT_CAPACITY }

/-- `HashMap.keys()`. -/
def HashMap.keys (m : HashMap) : Option (List String) :=
  m.buckets.foldlM
    (fun keys bucket =>
      match bucket.keys with
      | none => none
      | some ks => some (ks.foldl (fun acc key => acc ++ [key]) keys))
    []

/-- `HashMap.values()`. -/
def HashMap.values (m : HashMap) : Option (List String) :=
  m.buckets.foldlM
    (fun values bucket =>
      match bucket.values with
      | none => none
      | some vs => some (vs.foldl (fun acc value => acc ++ [value]) values))
    []

/-- `HashMap.entries()`. -/
def HashMap.entries (m : HashMap) : Option (List (String × String)) :=
  m.buckets.foldlM
    (fun entries bucket =>
      match bucket.entries with
      | none => none
      | some es => some (es.foldl (fun acc entry => acc ++ [entry]) entries))
    []

/-! ## Reachable states -/

/-- The tables reachable from `new HashMap()` by `set`, `remove` and `clear` calls that return. -/
inductive Reachable : HashMap → Prop
  | fresh : Reachable HashMap.empty
  | set {m m1 : HashMap} {fuel : Nat} {key value : String} :
      Reachable m → m.set fuel key value = some m1 → Reachable m1
  | remove {m m1 : HashMap} {key : String} {removed : Bool} :
      Reachable m → m.remove key = some (m1, removed) → Reachable m1
  | clear {m : HashMap} : Reachable m → Reachable m.clear

/-! ## Chains: the nodes a list reaches from `#head` -/

/-- The entry `[key, value]` a node holds. -/
def Node.entry (n : Node) : String × String := (n.key, n.value)

/-- The keys of a sequence of entries. -/
def keysOf (xs : List (String × String)) : List String := xs.map Prod.fst

/-- The value of the first entry with the given key. -/
def valueOf (key : String) : List (String × String) → Option String
  | [] => none
  | kv :: rest => if kv.1 = key then some kv.2 else valueOf key rest

/-- Overwrite the value of the first entry with the given key. -/
def setValue (key value : String) : List (String × String) → List (String × String)
  | [] => []
  | kv :: rest => if kv.1 = key then (kv.1, value) :: rest else kv :: setValue key value rest

/-- Drop the first entry with the given key. -/
def eraseKey (key : String) : List (String × String) → List (String × String)
  | [] => []
  | kv :: rest => if kv.1 = key then rest else kv :: eraseKey key rest

/-- `Chain nodes cur path`: following `next` references from `cur` visits the references and node
contents listed in `path`, in this order, and then reaches `null`. -/
inductive Chain (nodes : List Node) : Option Nat → List (Nat × Node) → Prop
  | nil : Chain nodes none []
  | cons {i : Nat} {n : Node} {rest : List (Nat × Node)} :
      nodes[i]? = some n → Chain nodes n.next rest → Chain nodes (some i) ((i, n) :: rest)

/-- The references on a path. -/
def refsOf (path : List (Nat × Node)) : List Nat := path.map Prod.fst

/-- The entries on a path. -/
def entriesOf (path : List (Nat × Node)) : List (String × String) :=
  path.map (fun x => x.2.entry)

/-- `Repr l xs attached`: the list `l` reaches from `#head` exactly the entries `xs` (pairwise
distinct keys); when `xs` is not empty, `#tail` is a valid reference, which is the last node
reached when `attached` is true and a node that is not reached when `attached` is false. -/
def LinkedList.Repr (l : LinkedList) (xs : List (String × String)) (attached : Bool) : Prop :=
  ∃ path, Chain l.nodes l.head path ∧ entriesOf path = xs ∧ (keysOf xs).Nodup ∧
    (path ≠ [] → ∃ t, l.tail = some t ∧ t < l.nodes.length ∧
      (attached = true → (refsOf path).getLast? = some t) ∧
      (attached = false → t ∉ refsOf path))

/-- The effect of `LinkedList.set(key, value)` on the entries reached from `#head` and on whether
`#tail` is the last node reached. A new key is linked behind `#tail`, so it is reached only when
the list is empty or `#tail` is the last node reached. -/
def chainSet (key value : String) (x : List (String × String) × Bool) :
    List (String × String) × Bool :=
  if key ∈ keysOf x.1 then (setValue key value x.1, x.2)
  else if x.1 = [] ∨ x.2 = true then (x.1 ++ [(key, value)], true)
  else (x.1, false)

/-! ## The table as a sequence of chains -/

/-- The part of `HashMap.set` before the load-factor test: look up the bucket, count a new key,
and set the key in the bucket. -/
def HashMap.setCore (m : HashMap) (key value : String) : Option HashMap :=
  let hashCode := m.hash key
  match m.buckets[hashCode]? with
  | none => none
  | some bucket =>
    match bucket.has key with
    | none => none
    | some present =>
      let size1 := if present then m.size else m.size + 1
      match bucket.set key value with
      | none => none
      | some bucket1 =>
        some { m with buckets := m.buckets.set hashCode bucket1, size := size1 }

/-- `Abs m bs`: bucket `i` of `m` reaches from its `#head` the entries `bs[i].1`, and `bs[i].2`
tells whether its `#tail` is the last node reached. -/
def HashMap.Abs (m : HashMap) (bs : List (List (String × String) × Bool)) : Prop :=
  List.Forall₂ (fun b x => LinkedList.Repr b x.1 x.2) m.buckets bs

/-- `Stored bs key value`: some bucket reaches the entry `[key, value]`. -/
def Stored (bs : List (List (String × String) × Bool)) (key value : String) : Prop :=
  ∃ (i : Nat) (x : List (String × String) × Bool), bs[i]? = some x ∧ (key, value) ∈ x.1

/-- Every entry reached is in the bucket whose index is the hash of its key. -/
def Placed (m : HashMap) (bs : List (List (String × String) × Bool)) : Prop :=
  ∀ (i : Nat) (x : List (String × String) × Bool), bs[i]? = some x → ∀ kv ∈ x.1, m.hash kv.1 = i

/-- The number of entries reached in all buckets. -/
def entryCount (bs : List (List (String × String) × Bool)) : Nat :=
  (bs.map (fun x => x.1.length)).sum

/-- All entries reached, bucket by bucket. -/
def allEntries (bs : List (List (String × String) × Bool)) : List (String × String) :=
  bs.flatMap (fun x => x.1)

/-- The effect of `HashMap.setCore` on the chains: `chainSet` in the bucket with index `h`. -/
def bucketsSet (h : Nat) (key value : String) (bs : List (List (String × String) × Bool)) :
    List (List (String × String) × Bool) :=
  match bs[h]? with
  | none => bs
  | some x => bs.set h (chainSet key value x)

/-- The structural invariant of a table, relative to the chains `bs` of its buckets. -/
structure HashMap.Inv (m : HashMap) (bs : List (List (String × String) × Bool)) : Prop where
  abs : m.Abs bs
  cap : ∃ n, m.capacity = 16 * 2 ^ n
  len : m.capacity ≤ m.buckets.length
  placed : Placed m bs
  count : (entryCount bs : Int) ≤ m.size

/-- The load-factor bound `size ≤ 0.75 * capacity`. -/
def HashMap.Loaded (m : HashMap) : Prop := 4 * m.size ≤ 3 * (m.capacity : Int)

/-- A table all of whose entries are reached and counted: every `#tail` is the last node of its
chain and `#size` is the number of entries reached. -/
structure HashMap.Clean (m : HashMap) (bs : List (List (String × String) × Bool)) : Prop where
  inv : m.Inv bs
  attached : ∀ x ∈ bs, x.2 = true
  exact : m.size = (entryCount bs : Int)

/-- The empty table with `capacity` buckets that `HashMap.#resize` allocates. -/
def HashMap.blank (capacity : Nat) : HashMap :=
  { buckets := List.replicate capacity LinkedList.empty
    capacity := capacity
    size := 0 }

/-! ## Sequences of calls -/

/-- A call of one of the mutating methods of `HashMap`. -/
inductive Call where
  | set (key value : String)
  | remove (key : String)
  | clear

/-- The table after one call (`set` calls may nest `fuel` deep). -/
def HashMap.call (fuel : Nat) (m : HashMap) : Call → Option HashMap
  | Call.set key value => m.set fuel key value
  | Call.remove key => (m.remove key).map Prod.fst
  | Call.clear => some m.clear

/-- The table after a sequence of calls. -/
def HashMap.run (fuel : Nat) (m : HashMap) (calls : List Call) : Option HashMap :=
  calls.foldlM (HashMap.call fuel) m

/-- The table that `new HashMap()` becomes under a sequence of calls (the fresh table itself if
some call has no result). -/
def HashMap.after (calls : List Call) : HashMap :=
  (HashMap.empty.run 2 calls).getD HashMap.empty

/-- The pairs of the demonstration in `src/main.js`. -/
def demoPairs : List (String × String) :=
  [("apple", "red"), ("banana", "yellow"), ("carrot", "orange"), ("dog", "brown"),
   ("elephant", "gray"), ("frog", "green"), ("grape", "purple"), ("hat", "black"),
   ("ice cream", "white"), ("jacket", "blue"), ("kite", "pink"), ("lion", "golden")]

/-! ## Calls of the public methods and what they return -/

/-- A call of one of the nine public methods of `HashMap`. -/
inductive Method where
  | set (key value : String)
  | get (key : String)
  | has (key : String)
  | remove (key : String)
  | length
  | clear
  | keys
  | values
  | entries

/-- The value a call returns: `undefined` for `set` and `clear`, a string or `null` for `get`,
a boolean for `has` and `remove`, a number for `length`, an array of strings for `keys` and
`values`, an array of pairs for `entries`. -/
inductive Answer where
  | undefined
  | value (v : Option String)
  | boolean (b : Bool)
  | number (n : Int)
  | strings (l : List String)
  | pairs (l : List (String × String))
  deriving DecidableEq

/-- One call: the table after it and the value returned. -/
def HashMap.invoke (fuel : Nat) (m : HashMap) : Method → Option (HashMap × Answer)
  | Method.set key value => (m.set fuel key value).map (fun m1 => (m1, Answer.undefined))
  | Method.get key => (m.get key).map (fun r => (m, Answer.value r))
  | Method.has key => (m.has key).map (fun r => (m, Answer.boolean r))
  | Method.remove key => (m.remove key).map (fun r => (r.1, Answer.boolean r.2))
  | Method.length => some (m, Answer.number m.length)
  | Method.clear => some (m.clear, Answer.undefined)
  | Method.keys => m.keys.map (fun r => (m, Answer.strings r))
  | Method.values => m.values.map (fun r => (m, Answer.strings r))
  | Method.entries => m.entries.map (fun r => (m, Answer.pairs r))

/-- A sequence of calls: for every call the value returned and the capacity after it. -/
def HashMap.trace (fuel : Nat) : HashMap → List Method → Option (List (Answer × Nat))
  | _, [] => some []
  | m, call :: rest =>
    match m.invoke fuel call with
    | none => none
    | some (m1, answer) =>
      match HashMap.trace fuel m1 rest with
      | none => none
      | some t => some ((answer, m1.capacity) :: t)

/-- The table `m` with `extra` more empty buckets behind its bucket array. -/
def HashMap.padded (extra : Nat) (m : HashMap) : HashMap :=
  { m with buckets := m.buckets ++ List.replicate extra LinkedList.empty }

/-! ## The hash as a polynomial -/

/-- The sum of `31 ^ (len - 1 - i) * code i` over the positions `i` of a sequence of `len`
character codes, over exact integers: the first code is weighted by `31 ^ (len - 1)`, the last
by `31 ^ 0`. -/
def polynomialSum : List Nat → Nat
  | [] => 0
  | code :: rest => 31 ^ rest.length * code + polynomialSum rest

/-- The hash with the modulus applied only once, at the end. -/
def hashAtEnd (capacity : Nat) (key : String) : Nat :=
  polynomialSum (charCodes key) % capacity

/-! ## Reachable chains -/

/-- The lists reachable from `new LinkedList()` by `set` and `remove` calls that return. -/
inductive ChainReachable : LinkedList → Prop
  | fresh : ChainReachable LinkedList.empty
  | set {l l1 : LinkedList} {key value : String} :
      ChainReachable l → l.set key value = some l1 → ChainReachable l1
  | remove {l l1 : LinkedList} {key : String} {removed : Bool} :
      ChainReachable l → l.remove key = some (l1, removed) → ChainReachable l1

/-- The 13 `set` calls that make a fresh table grow to capacity 32: the pairs of the
demonstration in `src/main.js` and one more. -/
def growCalls : List Call :=
  (demoPairs ++ [("moon", "silver")]).map (fun kv => Call.set kv.1 kv.2)

/-! ## Theorems -/

/-! ### Basic facts about chains -/

theorem Chain.getElem_of_mem {nodes : List Node} {cur : Option Nat} {path : List (Nat × Node)}
    (h : Chain nodes cur path) : ∀ x ∈ path, nodes[x.1]? = some x.2 := by
  induction h with
  | nil => intro x hx; cases hx
  | cons hi _ ih =>
    intro x hx
    rcases List.mem_cons.1 hx with rfl | hx
    · exact hi
    · exact ih x hx

theorem Chain.ref_lt {nodes : List Node} {cur : Option Nat} {path : List (Nat × Node)}
    (h : Chain nodes cur path) : ∀ i ∈ refsOf path, i < nodes.length := by
  intro i hi
  obtain ⟨x, hx, rfl⟩ := List.mem_map.1 hi
  have := h.getElem_of_mem x hx
  exact (List.getElem?_eq_some.1 this).1

theorem Chain.det {nodes : List Node} {cur : Option Nat} {p1 : List (Nat × Node)}
    (h1 : Chain nodes cur p1) : ∀ {p2}, Chain nodes cur p2 → p1 = p2 := by
  induction h1 with
  | nil => intro p2 h2; cases h2; rfl
  | cons hi _ ih =>
    intro p2 h2
    cases h2 with
    | cons hi2 hr2 =>
      have e := hi.symm.trans hi2
      cases e
      rw [ih hr2]

theorem Chain.suffix_of_mem {nodes : List Node} {cur : Option Nat} {path : List (Nat × Node)}
    (h : Chain nodes cur path) :
    ∀ i ∈ refsOf path, ∃ p, Chain nodes (some i) p ∧ p.length ≤ path.length := by
  induction h with
  | nil => intro i hi; cases hi
  | @cons j n rest hj hr ih =>
    intro i hi
    simp only [refsOf, List.map_cons, List.mem_cons] at hi
    rcases hi with rfl | hi
    · exact ⟨_, Chain.cons hj hr, le_rfl⟩
    · obtain ⟨p, hp, hlen⟩ := ih i hi
      exact ⟨p, hp, by simp; omega⟩

theorem Chain.refs_nodup {nodes : List Node} {cur : Option Nat} {path : List (Nat × Node)}
    (h : Chain nodes cur path) : (refsOf path).Nodup := by
  induction h with
  | nil => exact List.nodup_nil
  | @cons j n rest hj hr ih =>
    simp only [refsOf, List.map_cons, List.nodup_cons]
    refine ⟨fun hmem => ?_, ih⟩
    obtain ⟨p, hp, hlen⟩ := hr.suffix_of_mem j hmem
    have := (Chain.cons hj hr).det hp
    rw [← this] at hlen
    simp at hlen

theorem Chain.length_le {nodes : List Node} {cur : Option Nat} {path : List (Nat × Node)}
    (h : Chain nodes cur path) : path.length ≤ nodes.length := by
  have h1 : (refsOf path) ⊆ List.range nodes.length := by
    intro i hi
    exact List.mem_range.2 (h.ref_lt i hi)
  have h2 := (List.subperm_of_subset h.refs_nodup h1).length_le
  simpa [refsOf] using h2

theorem Chain.append {nodes : List Node} {cur : Option Nat} {path : List (Nat × Node)}
    (h : Chain nodes cur path) (extra : List Node) : Chain (nodes ++ extra) cur path := by
  induction h with
  | nil => exact Chain.nil
  | cons hi _ ih =>
    refine Chain.cons ?_ ih
    have hlt := (List.getElem?_eq_some.1 hi).1
    rw [List.getElem?_append_left hlt]
    exact hi

theorem Chain.set_of_not_mem {nodes : List Node} {cur : Option Nat} {path : List (Nat × Node)}
    (h : Chain nodes cur path) (t : Nat) (n : Node) (ht : t ∉ refsOf path) :
    Chain (nodes.set t n) cur path := by
  induction h with
  | nil => exact Chain.nil
  | @cons j m rest hj hr ih =>
    simp only [refsOf, List.map_cons, List.mem_cons, not_or] at ht
    refine Chain.cons ?_ (ih ht.2)
    rw [List.getElem?_set_ne ht.1]
    exact hj

/-! ### The read-only loops of `LinkedList` on a chain -/

theorem getLoop_chain (key : String) {nodes : List Node} {cur : Option Nat}
    {path : List (Nat × Node)} (h : Chain nodes cur path) :
    ∀ fuel, path.length ≤ fuel →
      LinkedList.getLoop key nodes fuel cur = some (valueOf key (entriesOf path)) := by
  induction h with
  | nil => intro fuel _; cases fuel <;> rfl
  | @cons j n rest hj hr ih =>
    intro fuel hf
    cases fuel with
    | zero => simp at hf
    | succ f =>
      have hf2 : rest.length ≤ f := by simpa using hf
      simp only [LinkedList.getLoop, hj, entriesOf, List.map_cons, valueOf, Node.entry]
      split
      · rfl
      · exact ih f hf2

theorem hasLoop_chain (key : String) {nodes : List Node} {cur : Option Nat}
    {path : List (Nat × Node)} (h : Chain nodes cur path) :
    ∀ fuel, path.length ≤ fuel →
      LinkedList.hasLoop key nodes fuel cur = some (decide (key ∈ keysOf (entriesOf path))) := by
  induction h with
  | nil => intro fuel _; cases fuel <;> simp [LinkedList.hasLoop, entriesOf, keysOf]
  | @cons j n rest hj hr ih =>
    intro fuel hf
    cases fuel with
    | zero => simp at hf
    | succ f =>
      have hf2 : rest.length ≤ f := by simpa using hf
      simp only [LinkedList.hasLoop, hj]
      by_cases hk : n.key = key
      · simp [hk, entriesOf, keysOf, Node.entry]
      · rw [if_neg hk, ih f hf2]
        have hk2 : ¬ key = n.key := fun e => hk e.symm
        simp [entriesOf, keysOf, Node.entry, hk2]

theorem keysLoop_chain {nodes : List Node} {cur : Option Nat}
    {path : List (Nat × Node)} (h : Chain nodes cur path) :
    ∀ fuel acc, path.length ≤ fuel →
      LinkedList.keysLoop nodes fuel cur acc = some (acc ++ keysOf (entriesOf path)) := by
  induction h with
  | nil => intro fuel acc _; cases fuel <;> simp [LinkedList.keysLoop, entriesOf, keysOf]
  | @cons j n rest hj hr ih =>
    intro fuel acc hf
    cases fuel with
    | zero => simp at hf
    | succ f =>
      have hf2 : rest.length ≤ f := by simpa using hf
      simp only [LinkedList.keysLoop, hj]
      rw [ih f _ hf2]
      simp [entriesOf, keysOf, Node.entry]

theorem valuesLoop_chain {nodes : List Node} {cur : Option Nat}
    {path : List (Nat × Node)} (h : Chain nodes cur path) :
    ∀ fuel acc, path.length ≤ fuel →
      LinkedList.valuesLoop nodes fuel cur acc
        = some (acc ++ (entriesOf path).map Prod.snd) := by
  induction h with
  | nil => intro fuel acc _; cases fuel <;> simp [LinkedList.valuesLoop, entriesOf]
  | @cons j n rest hj hr ih =>
    intro fuel acc hf
    cases fuel with
    | zero => simp at hf
    | succ f =>
      have hf2 : rest.length ≤ f := by simpa using hf
      simp only [LinkedList.valuesLoop, hj]
      rw [ih f _ hf2]
      simp [entriesOf, Node.entry]

theorem entriesLoop_chain {nodes : List Node} {cur : Option Nat}
    {path : List (Nat × Node)} (h : Chain nodes cur path) :
    ∀ fuel acc, path.length ≤ fuel →
      LinkedList.entriesLoop nodes fuel cur acc = some (acc ++ entriesOf path) := by
  induction h with
  | nil => intro fuel acc _; cases fuel <;> simp [LinkedList.entriesLoop, entriesOf]
  | @cons j n rest hj hr ih =>
    intro fuel acc hf
    cases fuel with
    | zero => simp at hf
    | succ f =>
      have hf2 : rest.length ≤ f := by simpa using hf
      simp only [LinkedList.entriesLoop, hj]
      rw [ih f _ hf2]
      simp [entriesOf, Node.entry]

theorem LinkedList.Repr.get_eq {l : LinkedList} {xs : List (String × String)} {a : Bool}
    (h : l.Repr xs a) (key : String) : l.get key = some (valueOf key xs) := by
  obtain ⟨path, hc, rfl, _, _⟩ := h
  exact getLoop_chain key hc _ hc.length_le

theorem LinkedList.Repr.has_eq {l : LinkedList} {xs : List (String × String)} {a : Bool}
    (h : l.Repr xs a) (key : String) : l.has key = some (decide (key ∈ keysOf xs)) := by
  obtain ⟨path, hc, rfl, _, _⟩ := h
  exact hasLoop_chain key hc _ hc.length_le

theorem LinkedList.Repr.chain_keys_eq {l : LinkedList} {xs : List (String × String)} {a : Bool}
    (h : l.Repr xs a) : l.keys = some (keysOf xs) := by
  obtain ⟨path, hc, rfl, _, _⟩ := h
  simpa using keysLoop_chain hc _ [] hc.length_le

theorem LinkedList.Repr.values_eq {l : LinkedList} {xs : List (String × String)} {a : Bool}
    (h : l.Repr xs a) : l.values = some (xs.map Prod.snd) := by
  obtain ⟨path, hc, rfl, _, _⟩ := h
  simpa using valuesLoop_chain hc _ [] hc.length_le

theorem LinkedList.Repr.chain_entries_eq {l : LinkedList} {xs : List (String × String)} {a : Bool}
    (h : l.Repr xs a) : l.entries = some xs := by
  obtain ⟨path, hc, rfl, _, _⟩ := h
  simpa using entriesLoop_chain hc _ [] hc.length_le

theorem LinkedList.Repr.chain_keys_nodup {l : LinkedList} {xs : List (String × String)} {a : Bool}
    (h : l.Repr xs a) : (keysOf xs).Nodup := by
  obtain ⟨path, _, _, hn, _⟩ := h
  exact hn

theorem LinkedList.repr_empty (a : Bool) : LinkedList.empty.Repr [] a :=
  ⟨[], Chain.nil, rfl, List.nodup_nil, fun h => absurd rfl h⟩

theorem LinkedList.Repr.attach_nil {l : LinkedList} {a : Bool} (h : l.Repr [] a) (b : Bool) :
    l.Repr [] b := by
  obtain ⟨path, hc, he, hn, _⟩ := h
  have hp : path = [] := by simpa [entriesOf] using he
  subst hp
  exact ⟨[], hc, rfl, hn, fun h => absurd rfl h⟩

/-! ### `LinkedList.set` on a chain -/

theorem Chain.nil_inv {nodes : List Node} {cur : Option Nat} (h : Chain nodes cur []) :
    cur = none := by
  cases h
  rfl

theorem Chain.cons_inv {nodes : List Node} {cur : Option Nat} {x : Nat × Node}
    {rest : List (Nat × Node)} (h : Chain nodes cur (x :: rest)) :
    cur = some x.1 ∧ nodes[x.1]? = some x.2 ∧ Chain nodes x.2.next rest := by
  cases h with
  | cons h1 h2 => exact ⟨rfl, h1, h2⟩

theorem keysOf_setValue (key value : String) (xs : List (String × String)) :
    keysOf (setValue key value xs) = keysOf xs := by
  induction xs with
  | nil => rfl
  | cons kv rest ih =>
    simp only [setValue]
    split
    · simp [keysOf]
    · simp only [keysOf, List.map_cons] at ih ⊢
      rw [ih]

theorem setLoop_chain (key value : String) {nodes : List Node} {cur : Option Nat}
    {path : List (Nat × Node)} (h : Chain nodes cur path) :
    ∀ fuel, path.length ≤ fuel →
      (key ∉ keysOf (entriesOf path) ∧
        LinkedList.setLoop key value nodes fuel cur = some none) ∨
      (key ∈ keysOf (entriesOf path) ∧ ∃ nodes1 path1,
        LinkedList.setLoop key value nodes fuel cur = some (some nodes1) ∧
        nodes1.length = nodes.length ∧ Chain nodes1 cur path1 ∧
        refsOf path1 = refsOf path ∧
        entriesOf path1 = setValue key value (entriesOf path) ∧
        ∀ t, t ∉ refsOf path → nodes1[t]? = nodes[t]?) := by
  induction h with
  | nil =>
    intro fuel _
    left
    cases fuel <;> simp [LinkedList.setLoop, entriesOf, keysOf]
  | @cons j n rest hj hr ih =>
    intro fuel hf
    have hnd := (Chain.cons hj hr).refs_nodup
    simp only [refsOf, List.map_cons, List.nodup_cons] at hnd
    cases fuel with
    | zero => simp at hf
    | succ f =>
      have hf2 : rest.length ≤ f := by simpa using hf
      simp only [LinkedList.setLoop, hj]
      by_cases hk : n.key = key
      · right
        refine ⟨by simp [entriesOf, keysOf, Node.entry, hk], ?_⟩
        refine ⟨nodes.set j { n with value := value },
          (j, { n with value := value }) :: rest, by simp [hk], by simp, ?_, by simp [refsOf],
          by simp [entriesOf, setValue, Node.entry, hk], ?_⟩
        · refine Chain.cons ?_ (hr.set_of_not_mem j _ hnd.1)
          have hlt := (List.getElem?_eq_some.1 hj).1
          simp [hlt]
        · intro t ht
          simp only [refsOf, List.map_cons, List.mem_cons, not_or] at ht
          rw [List.getElem?_set_ne (Ne.symm ht.1)]
      · have hk2 : ¬ key = n.key := fun e => hk e.symm
        rw [if_neg hk]
        rcases ih f hf2 with ⟨hno, he⟩ | ⟨hyes, nodes1, path1, he, hlen, hc, hrefs, hent, hframe⟩
        · left
          refine ⟨?_, he⟩
          simpa [entriesOf, keysOf, Node.entry, hk2] using hno
        · right
          refine ⟨by
            simp only [entriesOf, keysOf, List.map_cons, List.mem_cons]
            right
            simpa [entriesOf, keysOf] using hyes, nodes1, (j, n) :: path1, he, hlen, ?_, ?_, ?_, ?_⟩
          · refine Chain.cons ?_ hc
            rw [hframe j hnd.1]
            exact hj
          · simp only [refsOf, List.map_cons] at hrefs ⊢
            rw [hrefs]
          · simp only [entriesOf, List.map_cons, setValue, Node.entry, if_neg hk] at hent ⊢
            rw [hent]
          · intro t ht
            simp only [refsOf, List.map_cons, List.mem_cons, not_or] at ht
            exact hframe t ht.2

theorem Chain.snoc {nodes : List Node} {cur : Option Nat} {path : List (Nat × Node)}
    (h : Chain nodes cur path) (t : Nat) (last node : Node)
    (hlast : (refsOf path).getLast? = some t) (ht : nodes[t]? = some last)
    (hnext : node.next = none) :
    ∃ path1, Chain (nodes.set t { last with next := some nodes.length } ++ [node]) cur path1 ∧
      entriesOf path1 = entriesOf path ++ [node.entry] ∧
      refsOf path1 = refsOf path ++ [nodes.length] := by
  induction h with
  | nil => simp [refsOf] at hlast
  | @cons j n rest hj hr ih =>
    have hnd := (Chain.cons hj hr).refs_nodup
    simp only [refsOf, List.map_cons, List.nodup_cons] at hnd
    have hjlt := (List.getElem?_eq_some.1 hj).1
    cases rest with
    | nil =>
      simp only [refsOf, List.map_cons, List.map_nil, List.getLast?_singleton,
        Option.some.injEq] at hlast
      subst hlast
      have e : last = n := by
        have := ht.symm.trans hj
        exact Option.some.inj this
      subst e
      have hnone := hr.nil_inv
      refine ⟨[(j, { last with next := some nodes.length }), (nodes.length, node)], ?_, ?_, ?_⟩
      · refine Chain.cons ?_ (Chain.cons ?_ ?_)
        · rw [List.getElem?_append_left (by simpa using hjlt)]
          simp [hjlt]
        · simp
        · rw [hnext]; exact Chain.nil
      · simp [entriesOf, Node.entry]
      · simp [refsOf]
    | cons y rest2 =>
      have hlast2 : (refsOf (y :: rest2)).getLast? = some t := by
        simpa [refsOf] using hlast
      obtain ⟨path1, hc, hent, hrefs⟩ := ih hlast2
      have htmem : t ∈ refsOf (y :: rest2) := List.mem_of_getLast?_eq_some hlast2
      have hne : t ≠ j := by
        intro e
        subst e
        exact hnd.1 htmem
      refine ⟨(j, n) :: path1, ?_, ?_, ?_⟩
      · refine Chain.cons ?_ hc
        rw [List.getElem?_append_left (by simpa using hjlt), List.getElem?_set_ne hne]
        exact hj
      · simp only [entriesOf, List.map_cons, List.cons_append] at hent ⊢
        rw [hent]
      · simp only [refsOf, List.map_cons, List.cons_append] at hrefs ⊢
        rw [hrefs]

theorem LinkedList.Repr.chain_set_spec {l : LinkedList} {xs : List (String × String)} {a : Bool}
    (h : l.Repr xs a) (key value : String) :
    ∃ l1, l.set key value = some l1 ∧
      l1.Repr (chainSet key value (xs, a)).1 (chainSet key value (xs, a)).2 := by
  obtain ⟨path, hc, rfl, hn, htail⟩ := h
  rcases setLoop_chain key value hc _ hc.length_le with
    ⟨hno, he⟩ | ⟨hyes, nodes1, path1, he, hlen, hc1, hrefs, hent, _⟩
  · -- a new key
    cases path with
    | nil =>
      have hhead := hc.nil_inv
      refine ⟨_, by simp only [LinkedList.set, he]; rw [hhead], ?_⟩
      refine ⟨[(l.nodes.length, ⟨key, value, none⟩)], ?_, ?_, ?_, ?_⟩
      · exact Chain.cons (by simp) Chain.nil
      · simp [chainSet, entriesOf, keysOf, Node.entry]
      · simp [chainSet, entriesOf, keysOf]
      · intro _
        exact ⟨l.nodes.length, rfl, by simp, by simp [refsOf], by simp [chainSet, entriesOf, keysOf]⟩
    | cons x rest =>
      obtain ⟨t, htl, htlt, hatt, hdet⟩ := htail (by simp)
      obtain ⟨last, hlastn⟩ : ∃ last, l.nodes[t]? = some last :=
        ⟨l.nodes[t], List.getElem?_eq_getElem htlt⟩
      have hi := hc.cons_inv.1
      refine ⟨_, by simp only [LinkedList.set]; rw [he]; simp only [hi, htl, hlastn]; rfl, ?_⟩
      have hxs : entriesOf (x :: rest) ≠ [] := by simp [entriesOf]
      cases a with
      | true =>
        obtain ⟨path1, hc1, hent, hrefs⟩ :=
          hc.snoc t last ⟨key, value, none⟩ (hatt rfl) hlastn rfl
        refine ⟨path1, by rw [← hi]; exact hc1, ?_, ?_, ?_⟩
        · simp [chainSet, hno, hent, Node.entry]
        · simp only [chainSet, if_neg hno, or_true, if_true]
          rw [keysOf, List.map_append, List.nodup_append]
          refine ⟨hn, by simp, ?_⟩
          intro k hk1 hk2
          simp only [List.map_cons, List.map_nil, List.mem_singleton] at hk2
          subst hk2
          exact hno hk1
        · intro _
          refine ⟨l.nodes.length, rfl, by simp, ?_, ?_⟩
          · intro _
            rw [hrefs]
            exact List.getLast?_concat _
          · simp [chainSet, hno]
      | false =>
        refine ⟨x :: rest, ?_, ?_, ?_, ?_⟩
        · rw [← hi]
          exact (hc.set_of_not_mem t _ (hdet rfl)).append _
        · simp [chainSet, hno, hxs]
        · simpa [chainSet, hno, hxs] using hn
        · intro _
          refine ⟨l.nodes.length, rfl, by simp, ?_, ?_⟩
          · simp [chainSet, hno, hxs]
          · intro _ hmem
            have := hc.ref_lt _ hmem
            omega
  · -- an existing key
    refine ⟨_, by simp only [LinkedList.set, he]; rfl, ?_⟩
    refine ⟨path1, hc1, by simp [chainSet, hyes, hent], ?_, ?_⟩
    · simpa [chainSet, hyes, keysOf_setValue] using hn
    · intro hne
      have hne0 : path ≠ [] := by
        intro e
        subst e
        have : path1.length = 0 := by
          have := congrArg List.length hrefs
          simpa [refsOf] using this
        exact hne (List.length_eq_zero.1 this)
      obtain ⟨t, htl, htlt, hatt, hdet⟩ := htail hne0
      refine ⟨t, htl, by simpa [hlen] using htlt, ?_, ?_⟩
      · intro ha
        have ha2 : a = true := by simpa [chainSet, hyes] using ha
        rw [hrefs]
        exact hatt ha2
      · intro ha
        have ha2 : a = false := by simpa [chainSet, hyes] using ha
        rw [hrefs]
        exact hdet ha2

/-! ### `LinkedList.remove` on a chain -/

theorem keysOf_eraseKey_sublist (key : String) (xs : List (String × String)) :
    (keysOf (eraseKey key xs)).Sublist (keysOf xs) := by
  induction xs with
  | nil => exact List.Sublist.refl _
  | cons kv rest ih =>
    simp only [eraseKey]
    split
    · exact List.sublist_cons_self _ _
    · exact ih.cons₂ _

theorem removeLoop_absent (l : LinkedList) (key : String) {cur : Option Nat}
    {path : List (Nat × Node)} (h : Chain l.nodes cur path)
    (hno : key ∉ keysOf (entriesOf path)) :
    ∀ fuel previous, path.length ≤ fuel →
      LinkedList.removeLoop l key fuel cur previous = some (l, false) := by
  induction h with
  | nil => intro fuel previous _; cases fuel <;> rfl
  | @cons j n rest hj hr ih =>
    intro fuel previous hf
    cases fuel with
    | zero => simp at hf
    | succ f =>
      have hf2 : rest.length ≤ f := by simpa using hf
      simp only [entriesOf, keysOf, List.map_cons, List.mem_cons, not_or, Node.entry] at hno
      have hk : ¬ n.key = key := fun e => hno.1 e.symm
      simp only [LinkedList.removeLoop, hj, if_neg hk]
      exact ih (by simpa [entriesOf, keysOf] using hno.2) f _ hf2

theorem removeLoop_found (l : LinkedList) (key : String) {cur : Option Nat}
    {path : List (Nat × Node)} (h : Chain l.nodes cur path) :
    ∀ fuel pr prn, path.length ≤ fuel → pr ∉ refsOf path → l.nodes[pr]? = some prn →
      prn.next = cur → key ∈ keysOf (entriesOf path) →
      ∃ nodes1 path1 prn1,
        LinkedList.removeLoop l key fuel cur (some pr)
          = some ({ l with nodes := nodes1, size := l.size - 1 }, true) ∧
        nodes1.length = l.nodes.length ∧ nodes1[pr]? = some prn1 ∧
        prn1.entry = prn.entry ∧ Chain nodes1 prn1.next path1 ∧
        entriesOf path1 = eraseKey key (entriesOf path) ∧
        (refsOf path1).Sublist (refsOf path) ∧
        ((refsOf path1).getLast? = (refsOf path).getLast? ∨
          ∃ t, (refsOf path).getLast? = some t ∧ t ∉ refsOf path1) ∧
        ∀ t, t ≠ pr → t ∉ refsOf path → nodes1[t]? = l.nodes[t]? := by
  induction h with
  | nil => intro fuel pr prn _ _ _ _ hk; simp [entriesOf, keysOf] at hk
  | @cons j n rest hj hr ih =>
    intro fuel pr prn hf hpr hprn hnext hkey
    have hnd := (Chain.cons hj hr).refs_nodup
    simp only [refsOf, List.map_cons, List.nodup_cons] at hnd
    simp only [refsOf, List.map_cons, List.mem_cons, not_or] at hpr
    have hprlt := (List.getElem?_eq_some.1 hprn).1
    cases fuel with
    | zero => simp at hf
    | succ f =>
      have hf2 : rest.length ≤ f := by simpa using hf
      by_cases hk : n.key = key
      · refine ⟨l.nodes.set pr { prn with next := n.next }, rest, { prn with next := n.next },
          by simp only [LinkedList.removeLoop, hj, if_pos hk, hprn], by simp, by simp [hprlt],
          rfl, hr.set_of_not_mem pr _ hpr.2, by simp [entriesOf, eraseKey, Node.entry, hk],
          by simp [refsOf], ?_, ?_⟩
        · cases rest with
          | nil => right; exact ⟨j, by simp [refsOf], by simp [refsOf]⟩
          | cons y rest2 => left; simp [refsOf]
        · intro t ht _
          rw [List.getElem?_set_ne (Ne.symm ht)]
      · have hkey2 : key ∈ keysOf (entriesOf rest) := by
          simp only [entriesOf, keysOf, List.map_cons, List.mem_cons, Node.entry] at hkey
          rcases hkey with e | hmem
          · exact absurd e.symm hk
          · simpa [entriesOf, keysOf] using hmem
        obtain ⟨nodes1, path1, n1, he, hlen, hn1, hn1e, hc1, hent, hsub, hlast, hframe⟩ :=
          ih f j n hf2 hnd.1 hj rfl hkey2
        have hprn1 : nodes1[pr]? = some prn := by
          rw [hframe pr hpr.1 hpr.2]
          exact hprn
        have hn1k : n1.key = n.key := congrArg Prod.fst hn1e
        have hn1v : n1.value = n.value := congrArg Prod.snd hn1e
        refine ⟨nodes1, (j, n1) :: path1, prn,
          by simp only [LinkedList.removeLoop, hj, if_neg hk]; exact he, hlen, hprn1, rfl,
          by rw [hnext]; exact Chain.cons hn1 hc1, ?_, ?_, ?_, ?_⟩
        · simp only [entriesOf, List.map_cons, eraseKey, Node.entry, if_neg hk] at hent ⊢
          rw [hent, hn1k, hn1v]
        · simp only [refsOf, List.map_cons] at hsub ⊢
          exact hsub.cons₂ j
        · rcases hlast with e | ⟨t, ht1, ht2⟩
          · left
            simp only [refsOf, List.map_cons, List.getLast?_cons] at e ⊢
            rw [e]
          · right
            refine ⟨t, ?_, ?_⟩
            · simp only [refsOf, List.map_cons, List.getLast?_cons] at ht1 ⊢
              rw [ht1]
              rfl
            · have hmem : t ∈ List.map Prod.fst rest := List.mem_of_getLast?_eq_some ht1
              have hne : t ≠ j := by
                intro e
                subst e
                exact hnd.1 hmem
              simp only [refsOf, List.map_cons, List.mem_cons, not_or]
              exact ⟨hne, ht2⟩
        · intro t ht1 ht2
          simp only [refsOf, List.map_cons, List.mem_cons, not_or] at ht2
          exact hframe t ht2.1 ht2.2

theorem LinkedList.Repr.chain_remove_spec {l : LinkedList} {xs : List (String × String)} {a : Bool}
    (h : l.Repr xs a) (key : String) :
    ∃ l1 a1, l.remove key = some (l1, decide (key ∈ keysOf xs)) ∧
      l1.Repr (eraseKey key xs) a1 := by
  obtain ⟨path, hc, rfl, hn, htail⟩ := h
  have hn1 : (keysOf (eraseKey key (entriesOf path))).Nodup :=
    hn.sublist (keysOf_eraseKey_sublist key _)
  have hlen := hc.length_le
  by_cases hkey : key ∈ keysOf (entriesOf path)
  swap
  · refine ⟨l, a, ?_, ?_⟩
    · rw [decide_eq_false hkey]
      exact removeLoop_absent l key hc hkey _ _ hlen
    · have e : eraseKey key (entriesOf path) = entriesOf path := by
        clear hn1 hn htail hc hlen
        induction path with
        | nil => rfl
        | cons x rest ih =>
          simp only [entriesOf, keysOf, List.map_cons, List.mem_cons, not_or] at hkey
          have hk : ¬ x.2.entry.1 = key := fun e => hkey.1 e.symm
          simp only [entriesOf, List.map_cons, eraseKey, if_neg hk]
          have := ih (by simpa [entriesOf, keysOf] using hkey.2)
          simp only [entriesOf] at this
          rw [this]
      rw [e]
      exact ⟨path, hc, rfl, hn, htail⟩
  · rw [decide_eq_true hkey]
    cases path with
    | nil => simp [entriesOf, keysOf] at hkey
    | cons x rest =>
      obtain ⟨j, n⟩ := x
      obtain ⟨hhead, hj, hr⟩ := hc.cons_inv
      simp only at hhead hj hr
      have hnd := hc.refs_nodup
      simp only [refsOf, List.map_cons, List.nodup_cons] at hnd
      obtain ⟨t, htl, htlt, hatt, hdet⟩ := htail (by simp)
      obtain ⟨f, hf⟩ : ∃ f, l.nodes.length = f + 1 :=
        ⟨l.nodes.length - 1, by simp at hlen; omega⟩
      have hf2 : rest.length ≤ f := by simp at hlen; omega
      by_cases hk : n.key = key
      · -- the first node holds the key: `#head` moves on
        refine ⟨{ l with head := n.next, size := l.size - 1 }, a, ?_, ?_⟩
        · simp only [LinkedList.remove, hf, hhead, LinkedList.removeLoop, hj, if_pos hk]
        · refine ⟨rest, hr, by simp [entriesOf, eraseKey, Node.entry, hk], hn1, ?_⟩
          intro hne
          refine ⟨t, htl, htlt, ?_, ?_⟩
          · intro ha
            have := hatt ha
            cases rest with
            | nil => exact absurd rfl hne
            | cons y rest2 => simpa [refsOf] using this
          · intro ha hmem
            exact hdet ha (by simp [refsOf] at hmem ⊢; exact Or.inr hmem)
      · -- the key is further down the chain
        have hkey2 : key ∈ keysOf (entriesOf rest) := by
          simp only [entriesOf, keysOf, List.map_cons, List.mem_cons, Node.entry] at hkey
          rcases hkey with e | hmem
          · exact absurd e.symm hk
          · simpa [entriesOf, keysOf] using hmem
        obtain ⟨nodes1, path1, n1, he, hlen1, hn1j, hn1e, hc1, hent, hsub, hlast, _⟩ :=
          removeLoop_found l key hr f j n hf2 hnd.1 hj rfl hkey2
        have hn1k : n1.key = n.key := congrArg Prod.fst hn1e
        have hn1v : n1.value = n.value := congrArg Prod.snd hn1e
        have hchain : Chain nodes1 l.head ((j, n1) :: path1) := by
          rw [hhead]
          exact Chain.cons hn1j hc1
        have hentries : entriesOf ((j, n1) :: path1) = eraseKey key (entriesOf ((j, n) :: rest)) := by
          simp only [entriesOf, List.map_cons, eraseKey, Node.entry, if_neg hk] at hent ⊢
          rw [hent, hn1k, hn1v]
        have hrun : l.remove key = some ({ l with nodes := nodes1, size := l.size - 1 }, true) := by
          simp only [LinkedList.remove, hf, hhead, LinkedList.removeLoop, hj, if_neg hk]
          rw [he, hhead]
        have hdetached : t ∉ refsOf ((j, n) :: rest) →
            ({ l with nodes := nodes1, size := l.size - 1 } : LinkedList).Repr
              (eraseKey key (entriesOf ((j, n) :: rest))) false := by
          intro hnot
          refine ⟨(j, n1) :: path1, hchain, hentries, hn1, fun _ => ⟨t, htl, ?_, ?_, ?_⟩⟩
          · simpa [hlen1] using htlt
          · intro ha; cases ha
          · intro _ hmem
            simp only [refsOf, List.map_cons, List.mem_cons] at hmem hnot
            rcases hmem with e | hmem
            · exact hnot (Or.inl e)
            · exact hnot (Or.inr (hsub.subset hmem))
        cases a with
        | false => exact ⟨_, false, hrun, hdetached (hdet rfl)⟩
        | true =>
          have hlastt := hatt rfl
          rcases hlast with e | ⟨t2, ht1, ht2⟩
          · refine ⟨_, true, hrun, (j, n1) :: path1, hchain, hentries, hn1,
              fun _ => ⟨t, htl, by simpa [hlen1] using htlt, ?_, ?_⟩⟩
            · intro _
              simp only [refsOf, List.map_cons, List.getLast?_cons] at e hlastt ⊢
              rw [e]
              exact hlastt
            · intro ha; cases ha
          · -- the removed node was the last one: `#tail` still refers to it
            have htt : t2 = t := by
              simp only [refsOf, List.map_cons, List.getLast?_cons] at ht1 hlastt
              rw [ht1] at hlastt
              simpa using hlastt
            subst htt
            have hmem : t2 ∈ refsOf rest := List.mem_of_getLast?_eq_some ht1
            have hne : t2 ≠ j := by
              intro e
              subst e
              exact hnd.1 hmem
            refine ⟨_, false, hrun, (j, n1) :: path1, hchain, hentries, hn1,
              fun _ => ⟨t2, htl, by simpa [hlen1] using htlt, ?_, ?_⟩⟩
            · intro ha; cases ha
            · intro _ hm
              simp only [refsOf, List.map_cons, List.mem_cons] at hm
              rcases hm with e | hm
              · exact hne e
              · exact ht2 hm

/-! ### Entries of a chain -/

theorem valueOf_eq_some_iff {xs : List (String × String)} (hn : (keysOf xs).Nodup)
    (key value : String) : valueOf key xs = some value ↔ (key, value) ∈ xs := by
  induction xs with
  | nil => simp [valueOf]
  | cons kv rest ih =>
    obtain ⟨k, v⟩ := kv
    simp only [keysOf, List.map_cons, List.nodup_cons] at hn
    simp only [valueOf]
    by_cases hk : k = key
    · subst hk
      simp only [if_true, Option.some.injEq, List.mem_cons, Prod.mk.injEq, true_and]
      constructor
      · intro e; exact Or.inl e.symm
      · rintro (e | hmem)
        · exact e.symm
        · exact absurd (List.mem_map.2 ⟨(k, value), hmem, rfl⟩) hn.1
    · have hk2 : ¬ key = k := fun e => hk e.symm
      simp only [if_neg hk, List.mem_cons, Prod.mk.injEq, hk2, false_and, false_or]
      exact ih hn.2

theorem valueOf_eq_none_iff (xs : List (String × String)) (key : String) :
    valueOf key xs = none ↔ key ∉ keysOf xs := by
  induction xs with
  | nil => simp [valueOf, keysOf]
  | cons kv rest ih =>
    simp only [valueOf, keysOf, List.map_cons, List.mem_cons, not_or]
    by_cases hk : kv.1 = key
    · simp [hk]
    · have hk2 : ¬ key = kv.1 := fun e => hk e.symm
      simp only [if_neg hk, hk2, not_false_eq_true, true_and]
      exact ih

theorem mem_keysOf_iff (xs : List (String × String)) (key : String) :
    key ∈ keysOf xs ↔ ∃ value, (key, value) ∈ xs := by
  simp [keysOf]

theorem mem_setValue_of_ne (key value : String) (xs : List (String × String))
    (kv : String × String) (hne : kv.1 ≠ key) : kv ∈ setValue key value xs ↔ kv ∈ xs := by
  induction xs with
  | nil => simp [setValue]
  | cons y rest ih =>
    simp only [setValue]
    by_cases hk : y.1 = key
    · simp only [if_pos hk, List.mem_cons]
      constructor
      · rintro (e | h)
        · exact absurd (by rw [e]; exact hk) hne
        · exact Or.inr h
      · rintro (e | h)
        · exact absurd (by rw [e]; exact hk) hne
        · exact Or.inr h
    · simp only [if_neg hk, List.mem_cons, ih]

theorem mem_setValue_self {key : String} (value : String) {xs : List (String × String)}
    (hn : (keysOf xs).Nodup) (hmem : key ∈ keysOf xs) (v : String) :
    (key, v) ∈ setValue key value xs ↔ v = value := by
  induction xs with
  | nil => simp [keysOf] at hmem
  | cons y rest ih =>
    obtain ⟨k, w⟩ := y
    simp only [keysOf, List.map_cons, List.nodup_cons] at hn
    simp only [setValue]
    by_cases hk : k = key
    · subst hk
      simp only [if_true, List.mem_cons, Prod.mk.injEq, true_and]
      constructor
      · rintro (e | h)
        · exact e
        · exact absurd (List.mem_map.2 ⟨(k, v), h, rfl⟩) hn.1
      · intro e; exact Or.inl e
    · have hk2 : ¬ key = k := fun e => hk e.symm
      simp only [if_neg hk, List.mem_cons, Prod.mk.injEq, hk2, false_and, false_or]
      have hmem2 : key ∈ keysOf rest := by
        simp only [keysOf, List.map_cons, List.mem_cons] at hmem
        rcases hmem with e | h
        · exact absurd e hk2
        · exact h
      exact ih hn.2 hmem2

theorem length_setValue (key value : String) (xs : List (String × String)) :
    (setValue key value xs).length = xs.length := by
  have := congrArg List.length (keysOf_setValue key value xs)
  simpa [keysOf] using this

theorem mem_eraseKey_iff {xs : List (String × String)} (hn : (keysOf xs).Nodup)
    (key : String) (kv : String × String) :
    kv ∈ eraseKey key xs ↔ kv.1 ≠ key ∧ kv ∈ xs := by
  induction xs with
  | nil => simp [eraseKey]
  | cons y rest ih =>
    simp only [keysOf, List.map_cons, List.nodup_cons] at hn
    simp only [eraseKey]
    by_cases hk : y.1 = key
    · simp only [if_pos hk, List.mem_cons]
      constructor
      · intro h
        refine ⟨?_, Or.inr h⟩
        intro e
        exact hn.1 (List.mem_map.2 ⟨kv, h, by rw [e, hk]⟩)
      · rintro ⟨hne, e | h⟩
        · exact absurd (by rw [e]; exact hk) hne
        · exact h
    · simp only [if_neg hk, List.mem_cons, ih hn.2]
      constructor
      · rintro (e | ⟨h1, h2⟩)
        · exact ⟨by rw [e]; exact hk, Or.inl e⟩
        · exact ⟨h1, Or.inr h2⟩
      · rintro ⟨h1, e | h2⟩
        · exact Or.inl e
        · exact Or.inr ⟨h1, h2⟩

theorem length_eraseKey {xs : List (String × String)} {key : String}
    (hmem : key ∈ keysOf xs) : (eraseKey key xs).length + 1 = xs.length := by
  induction xs with
  | nil => simp [keysOf] at hmem
  | cons y rest ih =>
    simp only [eraseKey]
    by_cases hk : y.1 = key
    · simp [hk]
    · have hk2 : ¬ key = y.1 := fun e => hk e.symm
      simp only [if_neg hk, List.length_cons]
      have hmem2 : key ∈ keysOf rest := by
        simp only [keysOf, List.map_cons, List.mem_cons] at hmem
        rcases hmem with e | h
        · exact absurd e hk2
        · exact h
      rw [ih hmem2]

theorem eraseKey_of_not_mem {xs : List (String × String)} {key : String}
    (hno : key ∉ keysOf xs) : eraseKey key xs = xs := by
  induction xs with
  | nil => rfl
  | cons y rest ih =>
    simp only [keysOf, List.map_cons, List.mem_cons, not_or] at hno
    have hk : ¬ y.1 = key := fun e => hno.1 e.symm
    simp only [eraseKey, if_neg hk]
    rw [ih hno.2]

/-! ### The effect of `chainSet` -/

theorem mem_chainSet_of_ne (key value : String) (x : List (String × String) × Bool)
    (kv : String × String) (hne : kv.1 ≠ key) :
    kv ∈ (chainSet key value x).1 ↔ kv ∈ x.1 := by
  unfold chainSet
  split
  · exact mem_setValue_of_ne key value x.1 kv hne
  · split
    · simp only [List.mem_append, List.mem_singleton]
      constructor
      · rintro (h | e)
        · exact h
        · exact absurd (by rw [e]) hne
      · intro h; exact Or.inl h
    · exact Iff.rfl

theorem keysOf_chainSet_subset (key value : String) (x : List (String × String) × Bool) :
    ∀ k ∈ keysOf (chainSet key value x).1, k = key ∨ k ∈ keysOf x.1 := by
  intro k hk
  unfold chainSet at hk
  split at hk
  · rw [keysOf_setValue] at hk; exact Or.inr hk
  · split at hk
    · simp only [keysOf, List.map_append, List.mem_append, List.map_cons, List.map_nil,
        List.mem_singleton] at hk
      rcases hk with h | e
      · exact Or.inr h
      · exact Or.inl e
    · exact Or.inr hk

theorem mem_chainSet_self {key : String} (value : String) {xs : List (String × String)}
    (hn : (keysOf xs).Nodup) (v : String) :
    (key, v) ∈ (chainSet key value (xs, true)).1 ↔ v = value := by
  unfold chainSet
  by_cases hmem : key ∈ keysOf xs
  · simp only [if_pos hmem]
    exact mem_setValue_self value hn hmem v
  · simp only [if_neg hmem, or_true, if_true, List.mem_append, List.mem_singleton,
      Prod.mk.injEq, true_and]
    constructor
    · rintro (h | e)
      · exact absurd (List.mem_map.2 ⟨(key, v), h, rfl⟩) hmem
      · exact e
    · intro e; exact Or.inr e

theorem chainSet_attached (key value : String) (xs : List (String × String)) :
    (chainSet key value (xs, true)).2 = true := by
  unfold chainSet
  split
  · rfl
  · simp

theorem length_chainSet_attached (key value : String) (xs : List (String × String)) :
    (chainSet key value (xs, true)).1.length
      = xs.length + (if key ∈ keysOf xs then 0 else 1) := by
  unfold chainSet
  by_cases hmem : key ∈ keysOf xs
  · simp [hmem, length_setValue]
  · simp [hmem]

theorem length_chainSet_le (key value : String) (x : List (String × String) × Bool) :
    (chainSet key value x).1.length ≤ x.1.length + (if key ∈ keysOf x.1 then 0 else 1) := by
  unfold chainSet
  by_cases hmem : key ∈ keysOf x.1
  · simp [hmem, length_setValue]
  · simp only [if_neg hmem]
    split <;> simp

/-! ### Buckets and their chains -/

theorem HashMap.hash_lt (m : HashMap) (key : String) (hc : 0 < m.capacity) :
    m.hash key < m.capacity := by
  unfold HashMap.hash
  have : ∀ (codes : List Nat) (acc : Nat), acc < m.capacity →
      codes.foldl (fun hashCode code => (31 * hashCode + code) % m.capacity) acc
        < m.capacity := by
    intro codes
    induction codes with
    | nil => intro acc h; exact h
    | cons c rest ih =>
      intro acc _
      exact ih _ (Nat.mod_lt _ hc)
  exact this _ 0 hc

theorem HashMap.hash_congr {m m1 : HashMap} (h : m1.capacity = m.capacity) (key : String) :
    m1.hash key = m.hash key := by
  unfold HashMap.hash
  rw [h]

theorem forall₂_getElem {α β : Type} {R : α → β → Prop} {l1 : List α} {l2 : List β}
    (h : List.Forall₂ R l1 l2) :
    ∀ (i : Nat) (a : α), l1[i]? = some a → ∃ b, l2[i]? = some b ∧ R a b := by
  induction h with
  | nil => intro i a hi; simp at hi
  | cons hab _ ih =>
    intro i a hi
    cases i with
    | zero =>
      simp only [List.getElem?_cons_zero, Option.some.injEq] at hi
      subst hi
      exact ⟨_, by simp, hab⟩
    | succ j =>
      simp only [List.getElem?_cons_succ] at hi ⊢
      exact ih j a hi

theorem forall₂_getElem_right {α β : Type} {R : α → β → Prop} {l1 : List α} {l2 : List β}
    (h : List.Forall₂ R l1 l2) :
    ∀ (i : Nat) (b : β), l2[i]? = some b → ∃ a, l1[i]? = some a ∧ R a b := by
  induction h with
  | nil => intro i a hi; simp at hi
  | cons hab _ ih =>
    intro i a hi
    cases i with
    | zero =>
      simp only [List.getElem?_cons_zero, Option.some.injEq] at hi
      subst hi
      exact ⟨_, by simp, hab⟩
    | succ j =>
      simp only [List.getElem?_cons_succ] at hi ⊢
      exact ih j a hi

theorem forall₂_set {α β : Type} {R : α → β → Prop} {l1 : List α} {l2 : List β}
    (h : List.Forall₂ R l1 l2) {a : α} {b : β} (hab : R a b) :
    ∀ i : Nat, List.Forall₂ R (l1.set i a) (l2.set i b) := by
  induction h with
  | nil => intro i; simp
  | cons hxy hrest ih =>
    intro i
    cases i with
    | zero => exact List.Forall₂.cons hab hrest
    | succ j => exact List.Forall₂.cons hxy (ih j)

theorem HashMap.Inv.cap_pos {m : HashMap} {bs : List (List (String × String) × Bool)}
    (h : m.Inv bs) : 16 ≤ m.capacity := by
  obtain ⟨n, hn⟩ := h.cap
  rw [hn]
  have : 1 ≤ 2 ^ n := Nat.one_le_two_pow
  omega

theorem HashMap.Inv.length_eq {m : HashMap} {bs : List (List (String × String) × Bool)}
    (h : m.Inv bs) : m.buckets.length = bs.length :=
  List.Forall₂.length_eq h.abs

/-- The bucket a key hashes to exists, and has a chain. -/
theorem HashMap.Inv.bucket {m : HashMap} {bs : List (List (String × String) × Bool)}
    (h : m.Inv bs) (key : String) :
    ∃ b x, m.buckets[m.hash key]? = some b ∧ bs[m.hash key]? = some x ∧ b.Repr x.1 x.2 := by
  have hlt : m.hash key < m.buckets.length :=
    lt_of_lt_of_le (m.hash_lt key (by have := h.cap_pos; omega)) h.len
  obtain ⟨x, hx, hr⟩ := forall₂_getElem h.abs (m.hash key) _ (List.getElem?_eq_getElem hlt)
  exact ⟨_, x, List.getElem?_eq_getElem hlt, hx, hr⟩

theorem HashMap.Inv.bucket_keys_nodup {m : HashMap} {bs : List (List (String × String) × Bool)}
    (h : m.Inv bs) {i : Nat} {x : List (String × String) × Bool} (hx : bs[i]? = some x) :
    (keysOf x.1).Nodup := by
  obtain ⟨b, _, hr⟩ := forall₂_getElem_right h.abs i x hx
  exact hr.chain_keys_nodup

/-- An entry that is stored is in the bucket its key hashes to. -/
theorem HashMap.Inv.stored_iff {m : HashMap} {bs : List (List (String × String) × Bool)}
    (h : m.Inv bs) {key : String} {x : List (String × String) × Bool}
    (hx : bs[m.hash key]? = some x) (value : String) :
    Stored bs key value ↔ (key, value) ∈ x.1 := by
  constructor
  · rintro ⟨i, y, hy, hmem⟩
    have hi := h.placed i y hy _ hmem
    simp only at hi
    subst hi
    rw [hx] at hy
    cases hy
    exact hmem
  · intro hmem
    exact ⟨_, x, hx, hmem⟩

theorem HashMap.Inv.stored_unique {m : HashMap} {bs : List (List (String × String) × Bool)}
    (h : m.Inv bs) {key v1 v2 : String} (h1 : Stored bs key v1) (h2 : Stored bs key v2) :
    v1 = v2 := by
  obtain ⟨b, x, _, hx, hr⟩ := h.bucket key
  have e1 := (valueOf_eq_some_iff hr.chain_keys_nodup key v1).2 ((h.stored_iff hx v1).1 h1)
  have e2 := (valueOf_eq_some_iff hr.chain_keys_nodup key v2).2 ((h.stored_iff hx v2).1 h2)
  rw [e1] at e2
  exact Option.some.inj e2

/-- `get` returns the stored value, or `null` when the key is not stored. -/
theorem HashMap.Inv.get_spec {m : HashMap} {bs : List (List (String × String) × Bool)}
    (h : m.Inv bs) (key : String) :
    ∃ r, m.get key = some r ∧ ∀ value, r = some value ↔ Stored bs key value := by
  obtain ⟨b, x, hb, hx, hr⟩ := h.bucket key
  refine ⟨valueOf key x.1, ?_, ?_⟩
  · simp only [HashMap.get, hb]
    exact hr.get_eq key
  · intro value
    rw [valueOf_eq_some_iff hr.chain_keys_nodup, h.stored_iff hx]

/-- `has` tells whether the key is stored. -/
theorem HashMap.Inv.has_spec {m : HashMap} {bs : List (List (String × String) × Bool)}
    (h : m.Inv bs) (key : String) :
    ∃ r, m.has key = some r ∧ (r = true ↔ ∃ value, Stored bs key value) := by
  obtain ⟨b, x, hb, hx, hr⟩ := h.bucket key
  refine ⟨decide (key ∈ keysOf x.1), ?_, ?_⟩
  · simp only [HashMap.has, hb]
    exact hr.has_eq key
  · rw [decide_eq_true_iff, mem_keysOf_iff]
    constructor
    · rintro ⟨v, hv⟩; exact ⟨v, (h.stored_iff hx v).2 hv⟩
    · rintro ⟨v, hv⟩; exact ⟨v, (h.stored_iff hx v).1 hv⟩

/-- Two tables that store the same values for a key answer `get` alike. -/
theorem get_eq_of_stored_iff {m m1 : HashMap} {bs bs1 : List (List (String × String) × Bool)}
    (h : m.Inv bs) (h1 : m1.Inv bs1) {key : String}
    (hs : ∀ value, Stored bs1 key value ↔ Stored bs key value) : m1.get key = m.get key := by
  obtain ⟨r, hr, hrs⟩ := h.get_spec key
  obtain ⟨r1, hr1, hrs1⟩ := h1.get_spec key
  rw [hr, hr1]
  congr 1
  cases r1 with
  | none =>
    cases r with
    | none => rfl
    | some v =>
      have := (hrs1 v).2 ((hs v).2 ((hrs v).1 rfl))
      cases this
  | some v1 =>
    have := (hrs v1).2 ((hs v1).1 ((hrs1 v1).1 rfl))
    rw [this]

theorem has_eq_of_stored_iff {m m1 : HashMap} {bs bs1 : List (List (String × String) × Bool)}
    (h : m.Inv bs) (h1 : m1.Inv bs1) {key : String}
    (hs : ∀ value, Stored bs1 key value ↔ Stored bs key value) : m1.has key = m.has key := by
  obtain ⟨r, hr, hrs⟩ := h.has_spec key
  obtain ⟨r1, hr1, hrs1⟩ := h1.has_spec key
  rw [hr, hr1]
  congr 1
  have : (r1 = true ↔ r = true) := by
    rw [hrs, hrs1]
    constructor
    · rintro ⟨v, hv⟩; exact ⟨v, (hs v).1 hv⟩
    · rintro ⟨v, hv⟩; exact ⟨v, (hs v).2 hv⟩
  cases r <;> cases r1 <;> simp_all

/-! ### `HashMap.setCore`: the part of `set` before the load-factor test -/

theorem entryCount_set (bs : List (List (String × String) × Bool)) :
    ∀ (h : Nat) (x y : List (String × String) × Bool), bs[h]? = some x →
      entryCount (bs.set h y) + x.1.length = entryCount bs + y.1.length := by
  induction bs with
  | nil => intro h x y hx; simp at hx
  | cons z rest ih =>
    intro h x y hx
    cases h with
    | zero =>
      simp only [List.getElem?_cons_zero, Option.some.injEq] at hx
      subst hx
      simp only [entryCount, List.set_cons_zero, List.map_cons, List.sum_cons]
      omega
    | succ j =>
      simp only [List.getElem?_cons_succ] at hx
      have := ih j x y hx
      simp only [entryCount, List.set_cons_succ, List.map_cons, List.sum_cons] at this ⊢
      omega

theorem bucketsSet_eq {bs : List (List (String × String) × Bool)} {h : Nat}
    {x : List (String × String) × Bool} (hx : bs[h]? = some x) (key value : String) :
    bucketsSet h key value bs = bs.set h (chainSet key value x) := by
  simp only [bucketsSet, hx]

theorem getElem?_bucketsSet {bs : List (List (String × String) × Bool)} {h : Nat}
    {x : List (String × String) × Bool} (hx : bs[h]? = some x) (key value : String) (i : Nat) :
    (bucketsSet h key value bs)[i]? = if i = h then some (chainSet key value x) else bs[i]? := by
  rw [bucketsSet_eq hx]
  have hlt : h < bs.length := (List.getElem?_eq_some.1 hx).1
  by_cases hi : i = h
  · subst hi
    simp [hlt]
  · rw [if_neg hi, List.getElem?_set_ne (Ne.symm hi)]

/-- Setting a key leaves what is stored under every other key as it was. -/
theorem stored_bucketsSet_of_ne {bs : List (List (String × String) × Bool)} {h : Nat}
    {x : List (String × String) × Bool} (hx : bs[h]? = some x) (key value : String)
    {k v : String} (hne : k ≠ key) :
    Stored (bucketsSet h key value bs) k v ↔ Stored bs k v := by
  constructor
  · rintro ⟨i, y, hy, hmem⟩
    rw [getElem?_bucketsSet hx] at hy
    by_cases hi : i = h
    · subst hi
      simp only [if_true, Option.some.injEq] at hy
      subst hy
      exact ⟨i, x, hx, (mem_chainSet_of_ne key value x (k, v) hne).1 hmem⟩
    · rw [if_neg hi] at hy
      exact ⟨i, y, hy, hmem⟩
  · rintro ⟨i, y, hy, hmem⟩
    by_cases hi : i = h
    · subst hi
      rw [hx] at hy
      cases hy
      exact ⟨i, _, by rw [getElem?_bucketsSet hx, if_pos rfl],
        (mem_chainSet_of_ne key value x (k, v) hne).2 hmem⟩
    · exact ⟨i, y, by rw [getElem?_bucketsSet hx, if_neg hi]; exact hy, hmem⟩

theorem entryCount_bucketsSet_le {bs : List (List (String × String) × Bool)} {h : Nat}
    {x : List (String × String) × Bool} (hx : bs[h]? = some x) (key value : String) :
    entryCount (bucketsSet h key value bs)
      ≤ entryCount bs + (if key ∈ keysOf x.1 then 0 else 1) := by
  rw [bucketsSet_eq hx]
  have h1 := entryCount_set bs h x (chainSet key value x) hx
  have h2 := length_chainSet_le key value x
  omega

theorem entryCount_bucketsSet_attached {bs : List (List (String × String) × Bool)} {h : Nat}
    {x : List (String × String) × Bool} (hx : bs[h]? = some x) (ha : x.2 = true)
    (key value : String) :
    entryCount (bucketsSet h key value bs)
      = entryCount bs + (if key ∈ keysOf x.1 then 0 else 1) := by
  rw [bucketsSet_eq hx]
  have h1 := entryCount_set bs h x (chainSet key value x) hx
  obtain ⟨xs, a⟩ := x
  simp only at ha
  subst ha
  have h2 := length_chainSet_attached key value xs
  simp only at h1 h2 ⊢
  omega

theorem HashMap.Inv.setCore_inv {m : HashMap} {bs : List (List (String × String) × Bool)}
    (h : m.Inv bs) (key value : String) :
    ∃ m1 x, bs[m.hash key]? = some x ∧ m.setCore key value = some m1 ∧
      m1.Inv (bucketsSet (m.hash key) key value bs) ∧
      m1.capacity = m.capacity ∧ m1.buckets.length = m.buckets.length ∧
      m1.size = m.size + (if key ∈ keysOf x.1 then 0 else 1) := by
  obtain ⟨b, x, hb, hx, hr⟩ := h.bucket key
  obtain ⟨b1, hset, hr1⟩ := hr.chain_set_spec key value
  refine ⟨{ m with buckets := m.buckets.set (m.hash key) b1,
                   size := if decide (key ∈ keysOf x.1) = true then m.size else m.size + 1 },
    x, hx, ?_, ?_, rfl, by simp, ?_⟩
  · simp only [HashMap.setCore, hb, hr.has_eq key, hset]
  · refine ⟨?_, h.cap, by simpa using h.len, ?_, ?_⟩
    · rw [bucketsSet_eq hx]
      exact forall₂_set h.abs hr1 _
    · intro i y hy kv hkv
      have hhash : ∀ (m1 : HashMap) (k : String), m1.capacity = m.capacity →
          m1.hash k = m.hash k := fun m1 k e => HashMap.hash_congr e k
      refine (hhash _ kv.1 rfl).trans ?_
      rw [getElem?_bucketsSet hx] at hy
      by_cases hi : i = m.hash key
      · rw [if_pos hi] at hy
        cases hy
        rcases keysOf_chainSet_subset key value x kv.1 (List.mem_map.2 ⟨kv, hkv, rfl⟩) with e | hk
        · rw [e, hi]
        · obtain ⟨kv2, hkv2, e⟩ := List.mem_map.1 hk
          rw [← e, hi]
          exact h.placed _ x hx kv2 hkv2
      · rw [if_neg hi] at hy
        exact h.placed i y hy kv hkv
    · have h1 := entryCount_bucketsSet_le hx key value
      have h2 := h.count
      simp only [decide_eq_true_eq]
      split
      · rename_i hk
        rw [if_pos hk] at h1
        omega
      · rename_i hk
        rw [if_neg hk] at h1
        omega
  · simp only [decide_eq_true_eq]
    split <;> simp

theorem HashMap.Clean.setCore_clean {m : HashMap} {bs : List (List (String × String) × Bool)}
    (h : m.Clean bs) (key value : String) :
    ∃ m1 x, bs[m.hash key]? = some x ∧ m.setCore key value = some m1 ∧
      m1.Clean (bucketsSet (m.hash key) key value bs) ∧
      m1.capacity = m.capacity ∧ m1.buckets.length = m.buckets.length ∧
      m1.size = m.size + (if key ∈ keysOf x.1 then 0 else 1) ∧
      ∀ v, Stored (bucketsSet (m.hash key) key value bs) key v ↔ v = value := by
  obtain ⟨m1, x, hx, hcore, hinv, hcap, hlen, hsize⟩ := h.inv.setCore_inv key value
  have hxa : x.2 = true := h.attached x (List.getElem?_mem hx)
  refine ⟨m1, x, hx, hcore, ⟨hinv, ?_, ?_⟩, hcap, hlen, hsize, ?_⟩
  · intro y hy
    obtain ⟨i, hi⟩ := List.getElem?_of_mem hy
    rw [getElem?_bucketsSet hx] at hi
    by_cases hih : i = m.hash key
    · rw [if_pos hih] at hi
      cases hi
      obtain ⟨xs, a⟩ := x
      simp only at hxa
      subst hxa
      exact chainSet_attached key value xs
    · rw [if_neg hih] at hi
      exact h.attached y (List.getElem?_mem hi)
  · rw [hsize, entryCount_bucketsSet_attached hx hxa, h.exact]
    split <;> simp
  · intro v
    have hx1 : (bucketsSet (m.hash key) key value bs)[m1.hash key]?
        = some (chainSet key value x) := by
      rw [HashMap.hash_congr hcap, getElem?_bucketsSet hx, if_pos rfl]
    rw [hinv.stored_iff hx1]
    obtain ⟨xs, a⟩ := x
    simp only at hxa
    subst hxa
    exact mem_chainSet_self value (h.inv.bucket_keys_nodup hx) v

/-! ### `HashMap.set`: unfolding, and the re-insertion loop of `#resize` -/

theorem HashMap.set_succ (fuel : Nat) (m : HashMap) (key value : String) :
    m.set (fuel + 1) key value =
      match m.setCore key value with
      | none => none
      | some m1 =>
        if 3 * (m1.capacity : Int) < 4 * m1.size then m1.resize fuel else some m1 := by
  simp only [HashMap.set, HashMap.setCore, HashMap.resize]
  cases m.buckets[m.hash key]? with
  | none => rfl
  | some bucket =>
    simp only
    cases bucket.has key with
    | none => rfl
    | some present =>
      simp only
      cases bucket.set key value with
      | none => rfl
      | some bucket1 => rfl

theorem HashMap.resize_eq (fuel : Nat) (m : HashMap) :
    m.resize fuel =
      m.buckets.foldlM
        (fun acc bucket =>
          match bucket.entries with
          | none => none
          | some entries => entries.foldlM (fun acc1 kv => acc1.set fuel kv.1 kv.2) acc)
        (HashMap.blank (m.capacity * 2)) := rfl

theorem foldlM_buckets_eq (g : HashMap → String × String → Option HashMap)
    {buckets : List LinkedList} {bs : List (List (String × String) × Bool)}
    (h : List.Forall₂ (fun b x => LinkedList.Repr b x.1 x.2) buckets bs) :
    ∀ acc : HashMap,
      buckets.foldlM
        (fun acc bucket =>
          match bucket.entries with
          | none => none
          | some entries => entries.foldlM g acc) acc
      = (allEntries bs).foldlM g acc := by
  induction h with
  | nil => intro acc; rfl
  | @cons b x bl xl hbx _ ih =>
    intro acc
    rw [List.foldlM_cons]
    simp only [allEntries, List.flatMap_cons, List.foldlM_append, hbx.chain_entries_eq]
    simp only [allEntries] at ih
    congr 1
    funext acc1
    exact ih acc1

theorem mem_allEntries (bs : List (List (String × String) × Bool)) (key value : String) :
    (key, value) ∈ allEntries bs ↔ Stored bs key value := by
  simp only [allEntries, List.mem_flatMap, Stored]
  constructor
  · rintro ⟨x, hx, hmem⟩
    obtain ⟨i, hi⟩ := List.getElem?_of_mem hx
    exact ⟨i, x, hi, hmem⟩
  · rintro ⟨i, x, hi, hmem⟩
    exact ⟨x, List.getElem?_mem hi, hmem⟩

theorem length_allEntries (bs : List (List (String × String) × Bool)) :
    (allEntries bs).length = entryCount bs := by
  induction bs with
  | nil => rfl
  | cons x rest ih =>
    simp only [allEntries, List.flatMap_cons, List.length_append, entryCount, List.map_cons,
      List.sum_cons] at ih ⊢
    rw [ih]

/-- No key is reached twice, neither in one bucket nor in two. -/
theorem HashMap.Inv.nodup_allEntries {m : HashMap} {bs : List (List (String × String) × Bool)}
    (h : m.Inv bs) : (keysOf (allEntries bs)).Nodup := by
  have e : keysOf (allEntries bs) = bs.flatMap (fun x => keysOf x.1) := by
    simp only [keysOf, allEntries, List.map_flatMap]
  rw [e, List.nodup_flatMap]
  refine ⟨fun x hx => ?_, ?_⟩
  · obtain ⟨i, hi⟩ := List.getElem?_of_mem hx
    exact h.bucket_keys_nodup hi
  · rw [List.pairwise_iff_getElem]
    intro i j hi hj hij k hk1 hk2
    obtain ⟨kv1, hkv1, e1⟩ := List.mem_map.1 hk1
    obtain ⟨kv2, hkv2, e2⟩ := List.mem_map.1 hk2
    have p1 := h.placed i bs[i] (List.getElem?_eq_getElem hi) kv1 hkv1
    have p2 := h.placed j bs[j] (List.getElem?_eq_getElem hj) kv2 hkv2
    rw [e1] at p1
    rw [e2] at p2
    omega

theorem forall₂_replicate {α β : Type} {R : α → β → Prop} {a : α} {b : β} (hab : R a b) :
    ∀ n : Nat, List.Forall₂ R (List.replicate n a) (List.replicate n b) := by
  intro n
  induction n with
  | zero => exact List.Forall₂.nil
  | succ k ih => exact List.Forall₂.cons hab ih

theorem entryCount_replicate (n : Nat) (a : Bool) :
    entryCount (List.replicate n (([] : List (String × String)), a)) = 0 := by
  induction n with
  | zero => rfl
  | succ k ih =>
    simp only [entryCount, List.replicate_succ, List.map_cons, List.sum_cons] at ih ⊢
    simp [ih]

theorem not_stored_replicate (n : Nat) (a : Bool) (key value : String) :
    ¬ Stored (List.replicate n (([] : List (String × String)), a)) key value := by
  rintro ⟨i, x, hx, hmem⟩
  have := List.getElem?_mem hx
  rw [List.mem_replicate] at this
  rw [this.2] at hmem
  cases hmem

/-- The empty table with `16 * 2 ^ n` buckets is clean. -/
theorem HashMap.blank_clean (n : Nat) :
    (HashMap.blank (16 * 2 ^ n)).Clean (List.replicate (16 * 2 ^ n) ([], true)) := by
  have habs : (HashMap.blank (16 * 2 ^ n)).Abs (List.replicate (16 * 2 ^ n) ([], true)) :=
    @forall₂_replicate LinkedList (List (String × String) × Bool)
      (fun b x => LinkedList.Repr b x.1 x.2) LinkedList.empty ([], true)
      (LinkedList.repr_empty true) _
  refine ⟨⟨habs, ⟨n, rfl⟩, by simp [HashMap.blank], ?_, ?_⟩, ?_, ?_⟩
  · intro i x hx kv hkv
    have := List.getElem?_mem hx
    rw [List.mem_replicate] at this
    rw [this.2] at hkv
    cases hkv
  · rw [entryCount_replicate]; simp [HashMap.blank]
  · intro x hx
    rw [List.mem_replicate] at hx
    rw [hx.2]
  · rw [entryCount_replicate]; simp [HashMap.blank]

theorem HashMap.Inv.present_iff {m : HashMap} {bs : List (List (String × String) × Bool)}
    (h : m.Inv bs) {key : String} {x : List (String × String) × Bool}
    (hx : bs[m.hash key]? = some x) :
    key ∈ keysOf x.1 ↔ ∃ value, Stored bs key value := by
  rw [mem_keysOf_iff]
  constructor
  · rintro ⟨v, hv⟩; exact ⟨v, (h.stored_iff hx v).2 hv⟩
  · rintro ⟨v, hv⟩; exact ⟨v, (h.stored_iff hx v).1 hv⟩

/-- Inserting pairwise distinct new keys into a clean table that has room for them: no resize
happens, and the table stores exactly what it stored plus the new entries. -/
theorem fold_set_clean (fuel : Nat) (hfuel : 1 ≤ fuel) :
    ∀ (es : List (String × String)) (m : HashMap) (bs : List (List (String × String) × Bool)),
      (keysOf es).Nodup → m.Clean bs → (∀ k ∈ keysOf es, ∀ v, ¬ Stored bs k v) →
      4 * (m.size + es.length) ≤ 3 * (m.capacity : Int) →
      ∃ m1 bs1, es.foldlM (fun acc kv => acc.set fuel kv.1 kv.2) m = some m1 ∧
        m1.Clean bs1 ∧ m1.capacity = m.capacity ∧ m1.size = m.size + es.length ∧
        ∀ k v, Stored bs1 k v ↔ (Stored bs k v ∨ (k, v) ∈ es) := by
  obtain ⟨f, rfl⟩ : ∃ f, fuel = f + 1 := ⟨fuel - 1, by omega⟩
  intro es
  induction es with
  | nil =>
    intro m bs _ hclean _ _
    exact ⟨m, bs, rfl, hclean, rfl, by simp, by simp⟩
  | cons kv rest ih =>
    intro m bs hnd hclean hnew hload
    obtain ⟨key, value⟩ := kv
    simp only [keysOf, List.map_cons, List.nodup_cons] at hnd
    obtain ⟨m1, x, hx, hcore, hclean1, hcap1, _, hsize1, hself⟩ :=
      hclean.setCore_clean key value
    have hnot : key ∉ keysOf x.1 := by
      rw [hclean.inv.present_iff hx]
      rintro ⟨v, hv⟩
      exact hnew key (by simp [keysOf]) v hv
    rw [if_neg hnot] at hsize1
    have hstep : m.set (f + 1) key value = some m1 := by
      rw [HashMap.set_succ, hcore]
      simp only
      rw [if_neg]
      rw [hcap1, hsize1]
      simp only [List.length_cons] at hload
      push_cast at hload ⊢
      omega
    have hnew1 : ∀ k ∈ keysOf rest, ∀ v,
        ¬ Stored (bucketsSet (m.hash key) key value bs) k v := by
      intro k hk v hv
      have hne : k ≠ key := by
        intro e
        subst e
        exact hnd.1 hk
      rw [stored_bucketsSet_of_ne hx key value hne] at hv
      exact hnew k (by simp only [keysOf, List.map_cons, List.mem_cons]; exact Or.inr hk) v hv
    have hload1 : 4 * (m1.size + rest.length) ≤ 3 * (m1.capacity : Int) := by
      rw [hcap1, hsize1]
      simp only [List.length_cons] at hload
      push_cast at hload ⊢
      omega
    obtain ⟨m2, bs2, hfold, hclean2, hcap2, hsize2, hst2⟩ :=
      ih m1 _ hnd.2 hclean1 hnew1 hload1
    refine ⟨m2, bs2, ?_, hclean2, by rw [hcap2, hcap1], ?_, ?_⟩
    · rw [List.foldlM_cons]
      simp only [hstep]
      exact hfold
    · rw [hsize2, hsize1]
      simp only [List.length_cons]
      push_cast
      omega
    · intro k v
      rw [hst2 k v]
      by_cases hk : k = key
      · subst hk
        rw [hself v]
        constructor
        · rintro (e | hm)
          · right; rw [e]; exact List.mem_cons_self _ _
          · right; exact List.mem_cons_of_mem _ hm
        · rintro (hs | hm)
          · exact absurd hs (hnew k (by simp [keysOf]) v)
          · rcases List.mem_cons.1 hm with e | hm
            · left; exact (Prod.mk.inj e).2
            · right; exact hm
      · rw [stored_bucketsSet_of_ne hx key value hk]
        constructor
        · rintro (hs | hm)
          · exact Or.inl hs
          · exact Or.inr (List.mem_cons_of_mem _ hm)
        · rintro (hs | hm)
          · exact Or.inl hs
          · rcases List.mem_cons.1 hm with e | hm
            · exact absurd (Prod.mk.inj e).1 hk
            · exact Or.inr hm

/-! ### `HashMap.#resize` and `HashMap.set` -/

/-- `#resize` on a table whose entries fit the doubled capacity: the result is clean, has the
doubled capacity, counts exactly the entries that were reached, and stores the same entries. -/
theorem HashMap.Inv.resize_spec {m : HashMap} {bs : List (List (String × String) × Bool)}
    (h : m.Inv bs) (fuel : Nat) (hfuel : 1 ≤ fuel)
    (hroom : 4 * (entryCount bs : Int) ≤ 3 * ((m.capacity * 2 : Nat) : Int)) :
    ∃ m1 bs1, m.resize fuel = some m1 ∧ m1.Clean bs1 ∧ m1.capacity = m.capacity * 2 ∧
      m1.size = (entryCount bs : Int) ∧ ∀ k v, Stored bs1 k v ↔ Stored bs k v := by
  obtain ⟨n, hn⟩ := h.cap
  have hcap2 : m.capacity * 2 = 16 * 2 ^ (n + 1) := by rw [hn, pow_succ]; ring
  have hblank := HashMap.blank_clean (n + 1)
  rw [← hcap2] at hblank
  have hfold := fold_set_clean fuel hfuel (allEntries bs) (HashMap.blank (m.capacity * 2)) _
    h.nodup_allEntries hblank
    (fun k _ v => not_stored_replicate _ _ k v)
    (by rw [length_allEntries]; simpa [HashMap.blank] using hroom)
  obtain ⟨m1, bs1, hrun, hclean, hcap, hsize, hst⟩ := hfold
  refine ⟨m1, bs1, ?_, hclean, by rw [hcap]; rfl, ?_, ?_⟩
  · rw [HashMap.resize_eq,
      foldlM_buckets_eq (fun acc1 kv => acc1.set fuel kv.1 kv.2) h.abs]
    exact hrun
  · rw [hsize, length_allEntries]
    simp [HashMap.blank]
  · intro k v
    rw [hst k v, mem_allEntries]
    constructor
    · rintro (hs | hs)
      · exact absurd hs (not_stored_replicate _ _ k v)
      · exact hs
    · intro hs; exact Or.inr hs

/-- `set` on a table that satisfies the invariant and the load-factor bound returns, keeps both,
leaves every other key as it was, and keeps or doubles the capacity. -/
theorem HashMap.Inv.set_inv {m : HashMap} {bs : List (List (String × String) × Bool)}
    (h : m.Inv bs) (hl : m.Loaded) (fuel : Nat) (hfuel : 2 ≤ fuel) (key value : String) :
    ∃ m1 bs1, m.set fuel key value = some m1 ∧ m1.Inv bs1 ∧ m1.Loaded ∧
      (∀ k, k ≠ key → ∀ v, Stored bs1 k v ↔ Stored bs k v) ∧
      (m1.capacity = m.capacity ∨ m1.capacity = m.capacity * 2) := by
  obtain ⟨f, rfl⟩ : ∃ f, fuel = f + 1 := ⟨fuel - 1, by omega⟩
  obtain ⟨m0, x, hx, hcore, hinv0, hcap0, _, hsize0⟩ := h.setCore_inv key value
  have hcap16 := h.cap_pos
  unfold HashMap.Loaded at hl
  have hsize0le : m0.size ≤ m.size + 1 := by
    rw [hsize0]; split <;> omega
  by_cases hover : 3 * (m0.capacity : Int) < 4 * m0.size
  · have hroom : 4 * (entryCount (bucketsSet (m.hash key) key value bs) : Int)
        ≤ 3 * ((m0.capacity * 2 : Nat) : Int) := by
      have := hinv0.count
      rw [hcap0]
      push_cast
      omega
    obtain ⟨m1, bs1, hres, hclean, hcap1, hsize1, hst⟩ :=
      hinv0.resize_spec f (by omega) hroom
    refine ⟨m1, bs1, ?_, hclean.inv, ?_, ?_, Or.inr (by rw [hcap1, hcap0])⟩
    · rw [HashMap.set_succ, hcore]
      simp only
      rw [if_pos hover]
      exact hres
    · unfold HashMap.Loaded
      rw [hsize1, hcap1]
      exact hroom
    · intro k hk v
      rw [hst k v, stored_bucketsSet_of_ne hx key value hk]
  · refine ⟨m0, _, ?_, hinv0, ?_, ?_, Or.inl hcap0⟩
    · rw [HashMap.set_succ, hcore]
      simp only
      rw [if_neg hover]
    · unfold HashMap.Loaded
      omega
    · intro k hk v
      rw [stored_bucketsSet_of_ne hx key value hk]

/-- `set` on a clean table: the key is stored with the new value afterwards, `#size` counts a new
key once, and the capacity doubles exactly when the new size exceeds `0.75 * capacity`. -/
theorem HashMap.Clean.set_clean {m : HashMap} {bs : List (List (String × String) × Bool)}
    (h : m.Clean bs) (hl : m.Loaded) (fuel : Nat) (hfuel : 2 ≤ fuel) (key value : String) :
    ∃ m1 bs1, m.set fuel key value = some m1 ∧ m1.Clean bs1 ∧ m1.Loaded ∧
      (∀ k v, Stored bs1 k v ↔ (k = key ∧ v = value) ∨ (k ≠ key ∧ Stored bs k v)) ∧
      ((∃ v, Stored bs key v) → m1.size = m.size) ∧
      ((¬ ∃ v, Stored bs key v) → m1.size = m.size + 1) ∧
      m1.capacity
        = if 3 * (m.capacity : Int) < 4 * m1.size then m.capacity * 2 else m.capacity := by
  obtain ⟨f, rfl⟩ : ∃ f, fuel = f + 1 := ⟨fuel - 1, by omega⟩
  obtain ⟨m0, x, hx, hcore, hclean0, hcap0, _, hsize0, hself⟩ := h.setCore_clean key value
  have hcap16 := h.inv.cap_pos
  unfold HashMap.Loaded at hl
  have hpres := h.inv.present_iff hx
  have hsize0le : m0.size ≤ m.size + 1 := by
    rw [hsize0]; split <;> omega
  have hstored0 : ∀ k v, Stored (bucketsSet (m.hash key) key value bs) k v ↔
      (k = key ∧ v = value) ∨ (k ≠ key ∧ Stored bs k v) := by
    intro k v
    by_cases hk : k = key
    · subst hk
      rw [hself v]
      simp
    · rw [stored_bucketsSet_of_ne hx key value hk]
      simp [hk]
  have hsizeA : (∃ v, Stored bs key v) → m0.size = m.size := by
    intro hp
    rw [hsize0, if_pos (hpres.2 hp)]
    simp
  have hsizeB : (¬ ∃ v, Stored bs key v) → m0.size = m.size + 1 := by
    intro hp
    rw [hsize0, if_neg (fun hm => hp (hpres.1 hm))]
  by_cases hover : 3 * (m0.capacity : Int) < 4 * m0.size
  · have hroom : 4 * (entryCount (bucketsSet (m.hash key) key value bs) : Int)
        ≤ 3 * ((m0.capacity * 2 : Nat) : Int) := by
      have := hclean0.inv.count
      rw [hcap0]
      push_cast
      omega
    obtain ⟨m1, bs1, hres, hclean, hcap1, hsize1, hst⟩ :=
      hclean0.inv.resize_spec f (by omega) hroom
    have hsz : m1.size = m0.size := by rw [hsize1, hclean0.exact]
    refine ⟨m1, bs1, ?_, hclean, ?_, ?_, ?_, ?_, ?_⟩
    · rw [HashMap.set_succ, hcore]
      simp only
      rw [if_pos hover]
      exact hres
    · unfold HashMap.Loaded
      rw [hsize1, hcap1]
      exact hroom
    · intro k v
      rw [hst k v, hstored0 k v]
    · intro hp; rw [hsz, hsizeA hp]
    · intro hp; rw [hsz, hsizeB hp]
    · rw [hsz, ← hcap0, if_pos hover, hcap1]
  · refine ⟨m0, _, ?_, hclean0, ?_, hstored0, hsizeA, hsizeB, ?_⟩
    · rw [HashMap.set_succ, hcore]
      simp only
      rw [if_neg hover]
    · unfold HashMap.Loaded
      omega
    · rw [← hcap0, if_neg hover]

/-! ### A larger nesting budget does not change the result of `set` -/

theorem foldlM_option_mono {α β : Type} {g g1 : β → α → Option β}
    (hg : ∀ acc a r, g acc a = some r → g1 acc a = some r) :
    ∀ (l : List α) (acc r : β), l.foldlM g acc = some r → l.foldlM g1 acc = some r := by
  intro l
  induction l with
  | nil => intro acc r h; exact h
  | cons a rest ih =>
    intro acc r h
    rw [List.foldlM_cons] at h ⊢
    cases hga : g acc a with
    | none => rw [hga] at h; cases h
    | some b =>
      rw [hga] at h
      rw [hg acc a b hga]
      exact ih b r h

theorem HashMap.set_mono :
    ∀ (fuel : Nat) (m : HashMap) (key value : String) (m1 : HashMap),
      m.set fuel key value = some m1 → m.set (fuel + 1) key value = some m1 := by
  intro fuel
  induction fuel with
  | zero => intro m key value m1 h; cases h
  | succ f ih =>
    intro m key value m1 h
    rw [HashMap.set_succ] at h ⊢
    cases hcore : m.setCore key value with
    | none => rw [hcore] at h; cases h
    | some m0 =>
      rw [hcore] at h
      simp only at h ⊢
      by_cases hover : 3 * (m0.capacity : Int) < 4 * m0.size
      · rw [if_pos hover] at h ⊢
        rw [HashMap.resize_eq] at h ⊢
        refine foldlM_option_mono ?_ _ _ _ h
        intro acc bucket r hr
        cases he : bucket.entries with
        | none => rw [he] at hr; cases hr
        | some es =>
          rw [he] at hr
          simp only at hr ⊢
          exact foldlM_option_mono (fun acc1 kv r1 h1 => ih acc1 kv.1 kv.2 r1 h1) _ _ _ hr
      · rw [if_neg hover] at h ⊢
        exact h

theorem HashMap.set_mono_add (fuel extra : Nat) (m : HashMap) (key value : String)
    (m1 : HashMap) (h : m.set fuel key value = some m1) :
    m.set (fuel + extra) key value = some m1 := by
  induction extra with
  | zero => exact h
  | succ e ih => exact HashMap.set_mono _ m key value m1 ih

/-! ### `HashMap.remove` and `HashMap.clear` -/

theorem list_set_self {α : Type} :
    ∀ (l : List α) (i : Nat) (a : α), l[i]? = some a → l.set i a = l := by
  intro l
  induction l with
  | nil => intro i a h; simp at h
  | cons b rest ih =>
    intro i a h
    cases i with
    | zero =>
      simp only [List.getElem?_cons_zero, Option.some.injEq] at h
      rw [h, List.set_cons_zero]
    | succ j =>
      simp only [List.getElem?_cons_succ] at h
      rw [List.set_cons_succ, ih j a h]

theorem LinkedList.Repr.remove_absent {l : LinkedList} {xs : List (String × String)} {a : Bool}
    (h : l.Repr xs a) {key : String} (hno : key ∉ keysOf xs) :
    l.remove key = some (l, false) := by
  obtain ⟨path, hc, rfl, _, _⟩ := h
  exact removeLoop_absent l key hc hno _ _ hc.length_le

/-- `remove` on a table that satisfies the invariant: it returns `true` exactly when the key was
stored, the key is not stored afterwards, every other key is as before, `#size` drops by one on
`true`, and on `false` the table is unchanged. -/
theorem HashMap.Inv.table_remove_spec {m : HashMap} {bs : List (List (String × String) × Bool)}
    (h : m.Inv bs) (key : String) :
    ∃ m1 bs1 removed, m.remove key = some (m1, removed) ∧
      (removed = true ↔ ∃ v, Stored bs key v) ∧ m1.Inv bs1 ∧
      (∀ k v, Stored bs1 k v ↔ (k ≠ key ∧ Stored bs k v)) ∧
      m1.capacity = m.capacity ∧ m1.buckets.length = m.buckets.length ∧
      (removed = true → m1.size = m.size - 1) ∧ (removed = false → m1 = m) := by
  obtain ⟨b, x, hb, hx, hr⟩ := h.bucket key
  have hpres := h.present_iff hx
  by_cases hk : key ∈ keysOf x.1
  · obtain ⟨b1, a1, hrem, hr1⟩ := hr.chain_remove_spec key
    rw [decide_eq_true hk] at hrem
    have hxlt : m.hash key < bs.length := (List.getElem?_eq_some.1 hx).1
    have hget : ∀ i, (bs.set (m.hash key) (eraseKey key x.1, a1))[i]?
        = if i = m.hash key then some (eraseKey key x.1, a1) else bs[i]? := by
      intro i
      by_cases hi : i = m.hash key
      · subst hi; simp [hxlt]
      · rw [if_neg hi, List.getElem?_set_ne (Ne.symm hi)]
    refine ⟨{ m with buckets := m.buckets.set (m.hash key) b1, size := m.size - 1 },
      bs.set (m.hash key) (eraseKey key x.1, a1), true, ?_, ?_, ?_, ?_, rfl, by simp,
      fun _ => rfl, fun e => by cases e⟩
    · simp only [HashMap.remove, hb, hrem]
    · simp only [true_iff]
      exact hpres.1 hk
    · refine ⟨forall₂_set h.abs hr1 _, h.cap, by simpa using h.len, ?_, ?_⟩
      · intro i y hy kv hkv
        have hhash : ∀ (m1 : HashMap) (k : String), m1.capacity = m.capacity →
            m1.hash k = m.hash k := fun m1 k e => HashMap.hash_congr e k
        refine (hhash _ kv.1 rfl).trans ?_
        rw [hget] at hy
        by_cases hi : i = m.hash key
        · rw [if_pos hi] at hy
          cases hy
          rw [hi]
          exact h.placed _ x hx kv ((mem_eraseKey_iff hr.chain_keys_nodup key kv).1 hkv).2
        · rw [if_neg hi] at hy
          exact h.placed i y hy kv hkv
      · have h1 := entryCount_set bs (m.hash key) x (eraseKey key x.1, a1) hx
        have h2 := length_eraseKey hk
        have h3 := h.count
        simp only at h1 ⊢
        omega
    · intro k v
      constructor
      · rintro ⟨i, y, hy, hmem⟩
        rw [hget] at hy
        by_cases hi : i = m.hash key
        · rw [if_pos hi] at hy
          cases hy
          have := (mem_eraseKey_iff hr.chain_keys_nodup key (k, v)).1 hmem
          exact ⟨this.1, _, x, hx, this.2⟩
        · rw [if_neg hi] at hy
          refine ⟨?_, i, y, hy, hmem⟩
          intro e
          subst e
          exact hi (h.placed i y hy _ hmem).symm
      · rintro ⟨hne, i, y, hy, hmem⟩
        by_cases hi : i = m.hash key
        · subst hi
          rw [hx] at hy
          cases hy
          exact ⟨_, _, by rw [hget, if_pos rfl],
            (mem_eraseKey_iff hr.chain_keys_nodup key (k, v)).2 ⟨hne, hmem⟩⟩
        · exact ⟨i, y, by rw [hget, if_neg hi]; exact hy, hmem⟩
  · have hrem := hr.remove_absent hk
    have hm : ({ m with buckets := m.buckets.set (m.hash key) b } : HashMap) = m := by
      rw [list_set_self _ _ _ hb]
    refine ⟨m, bs, false, ?_, ?_, h, ?_, rfl, rfl, fun e => (by cases e), fun _ => rfl⟩
    · simp only [HashMap.remove, hb, hrem, hm]
    · simp only [Bool.false_eq_true, false_iff]
      exact fun hp => hk (hpres.2 hp)
    · intro k v
      constructor
      · intro hs
        refine ⟨?_, hs⟩
        intro e
        subst e
        exact hk (hpres.2 ⟨v, hs⟩)
      · exact fun hs => hs.2

/-- The table after `clear()` is clean: it has capacity 16 and as many empty buckets as the
capacity was before the call. -/
theorem HashMap.Inv.clear_clean {m : HashMap} {bs : List (List (String × String) × Bool)}
    (h : m.Inv bs) : m.clear.Clean (List.replicate m.capacity ([], true)) := by
  have habs : m.clear.Abs (List.replicate m.capacity ([], true)) :=
    @forall₂_replicate LinkedList (List (String × String) × Bool)
      (fun b x => LinkedList.Repr b x.1 x.2) LinkedList.empty ([], true)
      (LinkedList.repr_empty true) _
  have hcap := h.cap_pos
  refine ⟨⟨habs, ⟨0, rfl⟩, by simpa [HashMap.clear, DEFAULT_CAPACITY] using hcap, ?_, ?_⟩,
    ?_, ?_⟩
  · intro i x hx kv hkv
    have := List.getElem?_mem hx
    rw [List.mem_replicate] at this
    rw [this.2] at hkv
    cases hkv
  · rw [entryCount_replicate]; simp [HashMap.clear]
  · intro x hx
    rw [List.mem_replicate] at hx
    rw [hx.2]
  · rw [entryCount_replicate]; simp [HashMap.clear]

theorem HashMap.empty_clean : HashMap.empty.Clean (List.replicate 16 ([], true)) :=
  HashMap.blank_clean 0

theorem HashMap.empty_loaded : HashMap.empty.Loaded := by
  simp [HashMap.Loaded, HashMap.empty, DEFAULT_CAPACITY]

/-! ### Reachable tables satisfy the invariant -/

theorem Reachable.inv {m : HashMap} (h : Reachable m) : ∃ bs, m.Inv bs ∧ m.Loaded := by
  induction h with
  | fresh => exact ⟨_, HashMap.empty_clean.inv, HashMap.empty_loaded⟩
  | @set m m1 fuel key value _ hset ih =>
    obtain ⟨bs, hinv, hl⟩ := ih
    obtain ⟨m2, bs2, hset2, hinv2, hl2, _, _⟩ :=
      hinv.set_inv hl (fuel + 2) (by omega) key value
    have := HashMap.set_mono_add fuel 2 m key value m1 hset
    rw [this] at hset2
    cases hset2
    exact ⟨bs2, hinv2, hl2⟩
  | @remove m m1 key removed _ hrem ih =>
    obtain ⟨bs, hinv, hl⟩ := ih
    obtain ⟨m2, bs2, r2, hrem2, _, hinv2, _, hcap, _, hsz, hsame⟩ := hinv.table_remove_spec key
    rw [hrem] at hrem2
    cases hrem2
    refine ⟨bs2, hinv2, ?_⟩
    unfold HashMap.Loaded at hl ⊢
    cases removed with
    | true => rw [hsz rfl, hcap]; omega
    | false => rw [hsame rfl]; exact hl
  | @clear m _ ih =>
    obtain ⟨bs, hinv, _⟩ := ih
    refine ⟨_, hinv.clear_clean.inv, ?_⟩
    simp [HashMap.Loaded, HashMap.clear, DEFAULT_CAPACITY]

/-! ### `keys()`, `values()` and `entries()` of a table -/

theorem foldl_push {α : Type} (l : List α) :
    ∀ acc : List α, l.foldl (fun acc a => acc ++ [a]) acc = acc ++ l := by
  induction l with
  | nil => intro acc; simp
  | cons a rest ih => intro acc; simp [ih]

theorem foldlM_entries {buckets : List LinkedList} {bs : List (List (String × String) × Bool)}
    (h : List.Forall₂ (fun b x => LinkedList.Repr b x.1 x.2) buckets bs) :
    ∀ acc : List (String × String),
      buckets.foldlM
        (fun entries bucket =>
          match bucket.entries with
          | none => none
          | some es => some (es.foldl (fun acc entry => acc ++ [entry]) entries)) acc
      = some (acc ++ allEntries bs) := by
  induction h with
  | nil => intro acc; simp [allEntries]
  | @cons b x bl xl hbx _ ih =>
    intro acc
    rw [List.foldlM_cons]
    simp only [hbx.chain_entries_eq, foldl_push, Option.bind_eq_bind, Option.some_bind]
    simp only [foldl_push] at ih
    rw [ih]
    simp [allEntries]

theorem foldlM_keys {buckets : List LinkedList} {bs : List (List (String × String) × Bool)}
    (h : List.Forall₂ (fun b x => LinkedList.Repr b x.1 x.2) buckets bs) :
    ∀ acc : List String,
      buckets.foldlM
        (fun keys bucket =>
          match bucket.keys with
          | none => none
          | some ks => some (ks.foldl (fun acc key => acc ++ [key]) keys)) acc
      = some (acc ++ (bs.map (fun x => keysOf x.1)).flatten) := by
  induction h with
  | nil => intro acc; simp
  | @cons b x bl xl hbx _ ih =>
    intro acc
    rw [List.foldlM_cons]
    simp only [hbx.chain_keys_eq, foldl_push, Option.bind_eq_bind, Option.some_bind]
    simp only [foldl_push] at ih
    rw [ih]
    simp

theorem HashMap.Inv.table_entries_eq {m : HashMap} {bs : List (List (String × String) × Bool)}
    (h : m.Inv bs) : m.entries = some (allEntries bs) := by
  have := foldlM_entries h.abs []
  simpa [HashMap.entries] using this

theorem HashMap.Inv.table_keys_eq {m : HashMap} {bs : List (List (String × String) × Bool)}
    (h : m.Inv bs) : m.keys = some (bs.map (fun x => keysOf x.1)).flatten := by
  have := foldlM_keys h.abs []
  simpa [HashMap.keys] using this

theorem keysOf_allEntries (bs : List (List (String × String) × Bool)) :
    keysOf (allEntries bs) = (bs.map (fun x => keysOf x.1)).flatten := by
  induction bs with
  | nil => rfl
  | cons x rest ih =>
    simp only [allEntries, keysOf, List.flatMap_cons, List.map_append, List.map_cons,
      List.flatten_cons] at ih ⊢
    rw [ih]

/-! ### Sequences of calls reach reachable tables -/

theorem Reachable.run {fuel : Nat} :
    ∀ (calls : List Call) {m m1 : HashMap}, Reachable m → m.run fuel calls = some m1 →
      Reachable m1 := by
  intro calls
  induction calls with
  | nil =>
    intro m m1 hm h
    simp only [HashMap.run, List.foldlM_nil] at h
    cases h
    exact hm
  | cons c rest ih =>
    intro m m1 hm h
    simp only [HashMap.run, List.foldlM_cons] at h
    cases hc : m.call fuel c with
    | none => rw [hc] at h; cases h
    | some m0 =>
      rw [hc] at h
      refine ih ?_ h
      cases c with
      | set key value => exact Reachable.set hm hc
      | remove key =>
        simp only [HashMap.call] at hc
        cases hr : m.remove key with
        | none => rw [hr] at hc; cases hc
        | some p =>
          obtain ⟨m2, removed⟩ := p
          rw [hr] at hc
          cases hc
          exact Reachable.remove hm hr
      | clear =>
        simp only [HashMap.call, Option.some.injEq] at hc
        subst hc
        exact Reachable.clear hm

theorem reachable_after (calls : List Call) : Reachable (HashMap.after calls) := by
  unfold HashMap.after
  cases h : HashMap.empty.run 2 calls with
  | none => exact Reachable.fresh
  | some m => exact Reachable.run calls Reachable.fresh h

theorem Reachable.new {fuel : Nat} {array : List (String × String)} {m : HashMap}
    (h : HashMap.new fuel array = some m) : Reachable m := by
  have key : ∀ (l : List (String × String)) (m0 m1 : HashMap), Reachable m0 →
      l.foldlM (fun m kv => m.set fuel kv.1 kv.2) m0 = some m1 → Reachable m1 := by
    intro l
    induction l with
    | nil => intro m0 m1 h0 h1; cases h1; exact h0
    | cons kv rest ih =>
      intro m0 m1 h0 h1
      rw [List.foldlM_cons] at h1
      cases hs : m0.set fuel kv.1 kv.2 with
      | none => rw [hs] at h1; cases h1
      | some m2 =>
        rw [hs] at h1
        exact ih m2 m1 (Reachable.set h0 hs) h1
  exact key array _ _ Reachable.fresh h

/-! ### The demonstration of `src/main.js` -/

/-- The `main.js` demonstration: the 12 `set` calls all return, the capacity stays 16, and
`entries()` lists the pairs bucket by bucket. -/
theorem demo_table :
    HashMap.new 2 demoPairs = some (HashMap.after (demoPairs.map (fun kv => Call.set kv.1 kv.2))) ∧
    (HashMap.after (demoPairs.map (fun kv => Call.set kv.1 kv.2))).capacity = 16 ∧
    (HashMap.after (demoPairs.map (fun kv => Call.set kv.1 kv.2))).entries
      = some [("elephant", "gray"), ("carrot", "orange"), ("frog", "green"),
          ("banana", "yellow"), ("apple", "red"), ("grape", "purple"), ("hat", "black"),
          ("dog", "brown"), ("lion", "golden"), ("ice cream", "white"), ("jacket", "blue"),
          ("kite", "pink")] :=
  ⟨rfl, rfl, rfl⟩

/-! ### Tables built by `set` calls alone -/

theorem valueOf_append_of_some {key value : String} {xs : List (String × String)}
    (h : valueOf key xs = some value) (ys : List (String × String)) :
    valueOf key (xs ++ ys) = some value := by
  induction xs with
  | nil => cases h
  | cons kv rest ih =>
    simp only [List.cons_append, valueOf] at h ⊢
    split
    · rename_i hk; rw [if_pos hk] at h; exact h
    · rename_i hk; rw [if_neg hk] at h; exact ih h

theorem valueOf_append_of_none {key : String} {xs : List (String × String)}
    (h : valueOf key xs = none) (ys : List (String × String)) :
    valueOf key (xs ++ ys) = valueOf key ys := by
  induction xs with
  | nil => rfl
  | cons kv rest ih =>
    simp only [List.cons_append, valueOf] at h ⊢
    split
    · rename_i hk; rw [if_pos hk] at h; cases h
    · rename_i hk; rw [if_neg hk] at h; exact ih h

/-- A sequence of `set` calls on a clean table: every call returns, the table stays clean, and it
stores for every key the value of the last pair with that key, or what it stored before. -/
theorem fold_set_spec (fuel : Nat) (hfuel : 2 ≤ fuel) :
    ∀ (es : List (String × String)) (m : HashMap) (bs : List (List (String × String) × Bool)),
      m.Clean bs → m.Loaded →
      ∃ m1 bs1, es.foldlM (fun acc kv => acc.set fuel kv.1 kv.2) m = some m1 ∧
        m1.Clean bs1 ∧ m1.Loaded ∧
        ∀ k v, Stored bs1 k v ↔
          (valueOf k es.reverse = some v ∨ (valueOf k es.reverse = none ∧ Stored bs k v)) := by
  intro es
  induction es with
  | nil =>
    intro m bs hclean hl
    exact ⟨m, bs, rfl, hclean, hl, by simp [valueOf]⟩
  | cons kv rest ih =>
    intro m bs hclean hl
    obtain ⟨k0, v0⟩ := kv
    obtain ⟨m0, bs0, hset, hclean0, hl0, hst0, _⟩ := hclean.set_clean hl fuel hfuel k0 v0
    obtain ⟨m1, bs1, hfold, hclean1, hl1, hst1⟩ := ih m0 bs0 hclean0 hl0
    refine ⟨m1, bs1, ?_, hclean1, hl1, ?_⟩
    · rw [List.foldlM_cons]
      simp only [hset]
      exact hfold
    · intro k v
      rw [hst1 k v, List.reverse_cons]
      cases hv : valueOf k rest.reverse with
      | some w =>
        rw [valueOf_append_of_some hv]
        simp
      | none =>
        rw [valueOf_append_of_none hv, hst0 k v]
        simp only [valueOf]
        by_cases hk : k0 = k
        · subst hk
          simp only [if_true, Option.some.injEq, ne_eq, not_true_eq_false, false_and, or_false,
            true_and, reduceCtorEq]
          rw [false_or]
          exact eq_comm
        · have hk2 : ¬ k = k0 := fun e => hk e.symm
          simp [hk, hk2]

theorem option_eq_of_iff {α : Type} {r s : Option α} (h : ∀ v, r = some v ↔ s = some v) :
    r = s := by
  cases r with
  | none =>
    cases s with
    | none => rfl
    | some w => exact absurd ((h w).2 rfl) (by simp)
  | some v => exact ((h v).1 rfl).symm

/-- The constructor: it returns a clean table within the load-factor bound that stores for every
key the value of the last pair with that key. -/
theorem HashMap.new_spec (fuel : Nat) (hfuel : 2 ≤ fuel) (array : List (String × String)) :
    ∃ m bs, HashMap.new fuel array = some m ∧ m.Clean bs ∧ m.Loaded ∧
      ∀ k v, Stored bs k v ↔ valueOf k array.reverse = some v := by
  obtain ⟨m, bs, hrun, hclean, hl, hst⟩ :=
    fold_set_spec fuel hfuel array HashMap.empty _ HashMap.empty_clean HashMap.empty_loaded
  refine ⟨m, bs, hrun, hclean, hl, ?_⟩
  intro k v
  rw [hst k v]
  constructor
  · rintro (h | h)
    · exact h
    · exact absurd h.2 (not_stored_replicate _ _ k v)
  · intro h; exact Or.inl h

/-! ### `values()` of a table -/

theorem foldlM_values {buckets : List LinkedList} {bs : List (List (String × String) × Bool)}
    (h : List.Forall₂ (fun b x => LinkedList.Repr b x.1 x.2) buckets bs) :
    ∀ acc : List String,
      buckets.foldlM
        (fun values bucket =>
          match bucket.values with
          | none => none
          | some vs => some (vs.foldl (fun acc value => acc ++ [value]) values)) acc
      = some (acc ++ (allEntries bs).map Prod.snd) := by
  induction h with
  | nil => intro acc; simp [allEntries]
  | @cons b x bl xl hbx _ ih =>
    intro acc
    rw [List.foldlM_cons]
    simp only [hbx.values_eq, foldl_push, Option.bind_eq_bind, Option.some_bind]
    simp only [foldl_push] at ih
    rw [ih]
    simp [allEntries]

theorem HashMap.Inv.table_values_eq {m : HashMap} {bs : List (List (String × String) × Bool)}
    (h : m.Inv bs) : m.values = some ((allEntries bs).map Prod.snd) := by
  have := foldlM_values h.abs []
  simpa [HashMap.values] using this

/-! ### Every call on a reachable table returns -/

theorem Reachable.invoke_returns {m : HashMap} (h : Reachable m) (fuel : Nat)
    (hfuel : 2 ≤ fuel) (call : Method) :
    ∃ m1 answer, m.invoke fuel call = some (m1, answer) ∧ Reachable m1 := by
  obtain ⟨bs, hinv, hl⟩ := h.inv
  cases call with
  | set key value =>
    obtain ⟨m1, bs1, hset, _⟩ := hinv.set_inv hl fuel hfuel key value
    exact ⟨m1, Answer.undefined, by simp [HashMap.invoke, hset], Reachable.set h hset⟩
  | get key =>
    obtain ⟨r, hget, _⟩ := hinv.get_spec key
    exact ⟨m, Answer.value r, by simp [HashMap.invoke, hget], h⟩
  | has key =>
    obtain ⟨r, hhas, _⟩ := hinv.has_spec key
    exact ⟨m, Answer.boolean r, by simp [HashMap.invoke, hhas], h⟩
  | remove key =>
    obtain ⟨m1, bs1, removed, hrem, _⟩ := hinv.table_remove_spec key
    exact ⟨m1, Answer.boolean removed, by simp [HashMap.invoke, hrem], Reachable.remove h hrem⟩
  | length => exact ⟨m, _, rfl, h⟩
  | clear => exact ⟨m.clear, _, rfl, Reachable.clear h⟩
  | keys => exact ⟨m, _, by simp only [HashMap.invoke, hinv.table_keys_eq]; rfl, h⟩
  | values =>
    exact ⟨m, _, by simp only [HashMap.invoke, hinv.table_values_eq]; rfl, h⟩
  | entries =>
    exact ⟨m, _, by simp only [HashMap.invoke, hinv.table_entries_eq]; rfl, h⟩

theorem Reachable.trace_returns (fuel : Nat) (hfuel : 2 ≤ fuel) :
    ∀ (calls : List Method) {m : HashMap}, Reachable m → ∃ t, m.trace fuel calls = some t := by
  intro calls
  induction calls with
  | nil => intro m _; exact ⟨[], rfl⟩
  | cons call rest ih =>
    intro m h
    obtain ⟨m1, answer, hinvoke, h1⟩ := h.invoke_returns fuel hfuel call
    obtain ⟨t, ht⟩ := ih h1
    exact ⟨(answer, m1.capacity) :: t, by simp [HashMap.trace, hinvoke, ht]⟩

/-! ### Extra empty buckets behind the bucket array are not observable -/

theorem foldlM_replicate_noop {α : Type} (f : α → LinkedList → Option α)
    (hf : ∀ acc, f acc LinkedList.empty = some acc) :
    ∀ (extra : Nat) (acc : α),
      (List.replicate extra LinkedList.empty).foldlM f acc = some acc := by
  intro extra
  induction extra with
  | zero => intro acc; rfl
  | succ k ih =>
    intro acc
    rw [List.replicate_succ, List.foldlM_cons, hf acc]
    exact ih acc

theorem foldlM_padded {α : Type} (f : α → LinkedList → Option α)
    (hf : ∀ acc, f acc LinkedList.empty = some acc) (buckets : List LinkedList)
    (extra : Nat) (acc : α) :
    (buckets ++ List.replicate extra LinkedList.empty).foldlM f acc = buckets.foldlM f acc := by
  rw [List.foldlM_append]
  cases buckets.foldlM f acc with
  | none => rfl
  | some r => exact foldlM_replicate_noop f hf extra r

theorem HashMap.padded_zero (m : HashMap) : m.padded 0 = m := by
  simp [HashMap.padded]

theorem HashMap.padded_hash (extra : Nat) (m : HashMap) (key : String) :
    (m.padded extra).hash key = m.hash key :=
  HashMap.hash_congr rfl key

theorem HashMap.padded_bucket (extra : Nat) (m : HashMap) {i : Nat}
    (hi : i < m.buckets.length) : (m.padded extra).buckets[i]? = m.buckets[i]? := by
  simp only [HashMap.padded]
  exact List.getElem?_append_left hi

theorem HashMap.padded_get (extra : Nat) (m : HashMap) (key : String)
    (hi : m.hash key < m.buckets.length) : (m.padded extra).get key = m.get key := by
  simp only [HashMap.get, HashMap.padded_hash, HashMap.padded_bucket extra m hi]

theorem HashMap.padded_has (extra : Nat) (m : HashMap) (key : String)
    (hi : m.hash key < m.buckets.length) : (m.padded extra).has key = m.has key := by
  simp only [HashMap.has, HashMap.padded_hash, HashMap.padded_bucket extra m hi]

theorem HashMap.padded_keys (extra : Nat) (m : HashMap) : (m.padded extra).keys = m.keys := by
  simp only [HashMap.keys, HashMap.padded]
  exact foldlM_padded _ (fun acc => rfl) _ _ _

theorem HashMap.padded_values (extra : Nat) (m : HashMap) :
    (m.padded extra).values = m.values := by
  simp only [HashMap.values, HashMap.padded]
  exact foldlM_padded _ (fun acc => rfl) _ _ _

theorem HashMap.padded_entries (extra : Nat) (m : HashMap) :
    (m.padded extra).entries = m.entries := by
  simp only [HashMap.entries, HashMap.padded]
  exact foldlM_padded _ (fun acc => rfl) _ _ _

theorem HashMap.padded_resize (extra fuel : Nat) (m : HashMap) :
    (m.padded extra).resize fuel = m.resize fuel := by
  rw [HashMap.resize_eq, HashMap.resize_eq]
  simp only [HashMap.padded]
  exact foldlM_padded _ (fun acc => rfl) _ _ _

theorem HashMap.padded_setCore (extra : Nat) (m : HashMap) (key value : String)
    (hi : m.hash key < m.buckets.length) :
    (m.padded extra).setCore key value = (m.setCore key value).map (HashMap.padded extra) := by
  simp only [HashMap.setCore, HashMap.padded_hash, HashMap.padded_bucket extra m hi]
  cases m.buckets[m.hash key]? with
  | none => rfl
  | some bucket =>
    simp only
    cases bucket.has key with
    | none => rfl
    | some present =>
      simp only
      cases bucket.set key value with
      | none => rfl
      | some bucket1 =>
        simp only [Option.map_some', HashMap.padded, List.set_append_left _ _ hi]

theorem HashMap.padded_set (extra fuel : Nat) (m : HashMap) (key value : String)
    (hi : m.hash key < m.buckets.length) {m1 : HashMap}
    (h : m.set fuel key value = some m1) :
    ∃ extra1, (m.padded extra).set fuel key value = some (m1.padded extra1) := by
  cases fuel with
  | zero => cases h
  | succ f =>
    rw [HashMap.set_succ] at h ⊢
    rw [HashMap.padded_setCore extra m key value hi]
    cases hcore : m.setCore key value with
    | none => rw [hcore] at h; cases h
    | some m0 =>
      rw [hcore] at h
      simp only [Option.map_some'] at h ⊢
      have hcap : (m0.padded extra).capacity = m0.capacity := rfl
      have hsize : (m0.padded extra).size = m0.size := rfl
      rw [hcap, hsize]
      by_cases hover : 3 * (m0.capacity : Int) < 4 * m0.size
      · rw [if_pos hover] at h ⊢
        refine ⟨0, ?_⟩
        rw [HashMap.padded_resize, h, HashMap.padded_zero]
      · rw [if_neg hover] at h ⊢
        cases h
        exact ⟨extra, rfl⟩

theorem HashMap.padded_remove (extra : Nat) (m : HashMap) (key : String)
    (hi : m.hash key < m.buckets.length) :
    (m.padded extra).remove key
      = (m.remove key).map (fun r => (r.1.padded extra, r.2)) := by
  simp only [HashMap.remove, HashMap.padded_hash, HashMap.padded_bucket extra m hi]
  cases m.buckets[m.hash key]? with
  | none => rfl
  | some bucket =>
    simp only
    cases bucket.remove key with
    | none => rfl
    | some r =>
      obtain ⟨bucket1, removed⟩ := r
      cases removed <;>
        simp only [Option.map_some', HashMap.padded, List.set_append_left _ _ hi]

theorem HashMap.padded_clear (extra : Nat) (m : HashMap) : (m.padded extra).clear = m.clear :=
  rfl

theorem Reachable.hash_in_range {m : HashMap} (h : Reachable m) (key : String) :
    m.hash key < m.buckets.length := by
  obtain ⟨bs, hinv, _⟩ := h.inv
  exact lt_of_lt_of_le (m.hash_lt key (by have := hinv.cap_pos; omega)) hinv.len

theorem HashMap.padded_invoke (extra fuel : Nat) {m : HashMap} (hr : Reachable m)
    (call : Method) {m1 : HashMap} {answer : Answer}
    (h : m.invoke fuel call = some (m1, answer)) :
    ∃ extra1, (m.padded extra).invoke fuel call = some (m1.padded extra1, answer) := by
  cases call with
  | set key value =>
    simp only [HashMap.invoke] at h ⊢
    cases hs : m.set fuel key value with
    | none => rw [hs] at h; cases h
    | some m2 =>
      rw [hs] at h
      cases h
      obtain ⟨extra1, he⟩ := HashMap.padded_set extra fuel m key value (hr.hash_in_range key) hs
      exact ⟨extra1, by rw [he]; rfl⟩
  | get key =>
    simp only [HashMap.invoke, HashMap.padded_get extra m key (hr.hash_in_range key)] at h ⊢
    cases hg : m.get key with
    | none => rw [hg] at h; cases h
    | some r => rw [hg] at h; cases h; exact ⟨extra, rfl⟩
  | has key =>
    simp only [HashMap.invoke, HashMap.padded_has extra m key (hr.hash_in_range key)] at h ⊢
    cases hg : m.has key with
    | none => rw [hg] at h; cases h
    | some r => rw [hg] at h; cases h; exact ⟨extra, rfl⟩
  | remove key =>
    simp only [HashMap.invoke, HashMap.padded_remove extra m key (hr.hash_in_range key)] at h ⊢
    cases hg : m.remove key with
    | none => rw [hg] at h; cases h
    | some r => rw [hg] at h; cases h; exact ⟨extra, rfl⟩
  | length =>
    simp only [HashMap.invoke, Option.some.injEq, Prod.mk.injEq] at h
    obtain ⟨rfl, rfl⟩ := h
    exact ⟨extra, rfl⟩
  | clear =>
    simp only [HashMap.invoke, Option.some.injEq, Prod.mk.injEq] at h
    obtain ⟨rfl, rfl⟩ := h
    exact ⟨0, by simp only [HashMap.invoke, HashMap.padded_clear, HashMap.padded_zero]⟩
  | keys =>
    simp only [HashMap.invoke, HashMap.padded_keys] at h ⊢
    cases hg : m.keys with
    | none => rw [hg] at h; cases h
    | some r => rw [hg] at h; cases h; exact ⟨extra, rfl⟩
  | values =>
    simp only [HashMap.invoke, HashMap.padded_values] at h ⊢
    cases hg : m.values with
    | none => rw [hg] at h; cases h
    | some r => rw [hg] at h; cases h; exact ⟨extra, rfl⟩
  | entries =>
    simp only [HashMap.invoke, HashMap.padded_entries] at h ⊢
    cases hg : m.entries with
    | none => rw [hg] at h; cases h
    | some r => rw [hg] at h; cases h; exact ⟨extra, rfl⟩

theorem HashMap.padded_trace (fuel : Nat) (hfuel : 2 ≤ fuel) :
    ∀ (calls : List Method) (extra : Nat) {m : HashMap} {t : List (Answer × Nat)},
      Reachable m → m.trace fuel calls = some t → (m.padded extra).trace fuel calls = some t := by
  intro calls
  induction calls with
  | nil => intro extra m t _ h; exact h
  | cons call rest ih =>
    intro extra m t hr h
    obtain ⟨m1, answer, hinvoke, hr1⟩ := hr.invoke_returns fuel hfuel call
    obtain ⟨extra1, hpad⟩ := HashMap.padded_invoke extra fuel hr call hinvoke
    simp only [HashMap.trace, hinvoke] at h
    simp only [HashMap.trace, hpad]
    cases ht : HashMap.trace fuel m1 rest with
    | none => rw [ht] at h; cases h
    | some t1 =>
      rw [ht] at h
      rw [ih extra1 hr1 ht]
      exact h

theorem HashMap.clear_eq_padded {m : HashMap} (hcap : 16 ≤ m.capacity) :
    m.clear = HashMap.empty.padded (m.capacity - 16) := by
  simp only [HashMap.clear, HashMap.padded, HashMap.empty, DEFAULT_CAPACITY]
  congr 1
  rw [← List.replicate_add]
  congr 1
  omega

/-! ### The hash is the polynomial sum modulo the capacity -/

theorem foldl_hash_mod (capacity : Nat) :
    ∀ (codes : List Nat) (acc : Nat),
      codes.foldl (fun hashCode code => (31 * hashCode + code) % capacity) acc % capacity
        = (31 ^ codes.length * acc + polynomialSum codes) % capacity := by
  intro codes
  induction codes with
  | nil => intro acc; simp [polynomialSum]
  | cons c rest ih =>
    intro acc
    rw [List.foldl_cons, ih]
    have h1 : (31 * acc + c) % capacity ≡ 31 * acc + c [MOD capacity] := Nat.mod_modEq _ _
    have h2 := (h1.mul_left (31 ^ rest.length)).add_right (polynomialSum rest)
    unfold Nat.ModEq at h2
    rw [h2]
    congr 1
    simp only [polynomialSum, List.length_cons, pow_succ]
    ring

theorem HashMap.hash_eq_polynomial (m : HashMap) (key : String) :
    m.hash key = polynomialSum (charCodes key) % m.capacity := by
  have h := foldl_hash_mod m.capacity (charCodes key) 0
  simp only [Nat.mul_zero, Nat.zero_add] at h
  rw [← h]
  by_cases hc : m.capacity = 0
  · unfold HashMap.hash
    rw [hc, Nat.mod_zero]
  · exact (Nat.mod_eq_of_lt (m.hash_lt key (Nat.pos_of_ne_zero hc))).symm

/-! ### A `set` call nested in `#resize` cannot resize again -/

theorem foldlM_none_of_ne_nil {α β : Type} :
    ∀ (l : List α) (acc : β), l ≠ [] → l.foldlM (fun _ _ => (none : Option β)) acc = none := by
  intro l acc hl
  cases l with
  | nil => exact absurd rfl hl
  | cons a rest => rfl

theorem chainSet_ne_nil (key value : String) (x : List (String × String) × Bool) :
    (chainSet key value x).1 ≠ [] := by
  unfold chainSet
  by_cases hmem : key ∈ keysOf x.1
  · rw [if_pos hmem]
    intro e
    have := congrArg List.length e
    rw [length_setValue] at this
    have hx : x.1 = [] := List.length_eq_zero.1 this
    rw [hx] at hmem
    simp [keysOf] at hmem
  · rw [if_neg hmem]
    split
    · simp
    · rename_i hne
      intro e
      exact hne (Or.inl e)

/-- With nesting budget 1 a `set` call that returns has not resized: the `set` calls that
`#resize` makes would have no budget left. -/
theorem HashMap.Inv.set_one_capacity {m : HashMap} {bs : List (List (String × String) × Bool)}
    (h : m.Inv bs) (key value : String) {m1 : HashMap} (hset : m.set 1 key value = some m1) :
    m1.capacity = m.capacity := by
  obtain ⟨m0, x, hx, hcore, hinv0, hcap0, _, _⟩ := h.setCore_inv key value
  rw [HashMap.set_succ, hcore] at hset
  simp only at hset
  by_cases hover : 3 * (m0.capacity : Int) < 4 * m0.size
  · rw [if_pos hover, HashMap.resize_eq,
      foldlM_buckets_eq (fun acc1 kv => acc1.set 0 kv.1 kv.2) hinv0.abs] at hset
    have hne : allEntries (bucketsSet (m.hash key) key value bs) ≠ [] := by
      intro e
      have hmem : ∀ kv, kv ∉ (chainSet key value x).1 := by
        intro kv hkv
        have : (kv.1, kv.2) ∈ allEntries (bucketsSet (m.hash key) key value bs) :=
          (mem_allEntries _ _ _).2
            ⟨m.hash key, _, by rw [getElem?_bucketsSet hx, if_pos rfl], hkv⟩
        rw [e] at this
        cases this
      exact chainSet_ne_nil key value x (List.eq_nil_iff_forall_not_mem.2 hmem)
    have hnone := foldlM_none_of_ne_nil (allEntries (bucketsSet (m.hash key) key value bs))
      (HashMap.blank (m0.capacity * 2)) hne
    have hfun : (fun (acc1 : HashMap) (kv : String × String) => acc1.set 0 kv.1 kv.2)
        = (fun _ _ => (none : Option HashMap)) := by
      funext acc1 kv
      rfl
    rw [hfun, hnone] at hset
    cases hset
  · rw [if_neg hover] at hset
    cases hset
    exact hcap0

/-! ### What `clear()` leaves behind -/

/-- After `clear()` the table has as many buckets as its capacity was before the call, all of
them new empty lists, capacity 16 and size 0. -/
theorem HashMap.clear_result (m : HashMap) :
    m.clear.buckets = List.replicate m.capacity LinkedList.empty ∧
      m.clear.capacity = 16 ∧ m.clear.length = 0 :=
  ⟨rfl, rfl, rfl⟩

/-! ## The claims -/

/-- C1 (defect in the code). After `set("a")`, `set("q")` (same bucket, capacity 16) and
`remove("q")`, the `#tail` of the bucket still refers to the unlinked node, so `set("1", "x")`
links the new node behind it: the call returns, and `get("1")` then returns `null`, not `"x"`. -/
theorem set_then_get_null_after_tail_removal :
    Reachable (HashMap.after [Call.set "a" "1", Call.set "q" "2", Call.remove "q"]) ∧
    ∃ m1, (HashMap.after [Call.set "a" "1", Call.set "q" "2", Call.remove "q"]).set 2 "1" "x"
        = some m1 ∧ m1.get "1" = some none :=
  ⟨reachable_after _, _, rfl, rfl⟩

/-- C2 (defect in the code). In the reachable table after `set("a")`, `set("q")`, `remove("q")`,
`set("1")`, `length()` is 2 while `entries()` and `keys()` hold one element. -/
theorem length_exceeds_entries_after_tail_removal :
    Reachable (HashMap.after
      [Call.set "a" "1", Call.set "q" "2", Call.remove "q", Call.set "1" "x"]) ∧
    (HashMap.after
      [Call.set "a" "1", Call.set "q" "2", Call.remove "q", Call.set "1" "x"]).length = 2 ∧
    (HashMap.after
      [Call.set "a" "1", Call.set "q" "2", Call.remove "q", Call.set "1" "x"]).entries
        = some [("a", "1")] ∧
    (HashMap.after
      [Call.set "a" "1", Call.set "q" "2", Call.remove "q", Call.set "1" "x"]).keys
        = some ["a"] :=
  ⟨reachable_after _, rfl, rfl, rfl⟩

/-- C3 (defect in the code). In the reachable table after `set("a")`, `set("q")`,
`remove("q")`, two successive calls `set("1", "x")` give `length()` 2 and then 3. -/
theorem second_set_grows_length_after_tail_removal :
    Reachable (HashMap.after [Call.set "a" "1", Call.set "q" "2", Call.remove "q"]) ∧
    ∃ m1 m2, (HashMap.after [Call.set "a" "1", Call.set "q" "2", Call.remove "q"]).set 2 "1" "x"
        = some m1 ∧ m1.set 2 "1" "x" = some m2 ∧ m1.length = 2 ∧ m2.length = 3 :=
  ⟨reachable_after _, _, _, rfl, rfl, rfl, rfl⟩

/-- C4. On every reachable table `remove(key)` returns, and afterwards `get(key)` returns `null`
and `has(key)` returns `false`. -/
theorem remove_then_get_has (m : HashMap) (h : Reachable m) (key : String) :
    ∃ m1 removed, m.remove key = some (m1, removed) ∧
      m1.get key = some none ∧ m1.has key = some false := by
  obtain ⟨bs, hinv, _⟩ := h.inv
  obtain ⟨m1, bs1, removed, hrem, _, hinv1, hst, _⟩ := hinv.table_remove_spec key
  have hnot : ∀ v, ¬ Stored bs1 key v := fun v hv => ((hst key v).1 hv).1 rfl
  obtain ⟨r, hget, hr⟩ := hinv1.get_spec key
  obtain ⟨b, hhas, hb⟩ := hinv1.has_spec key
  refine ⟨m1, removed, hrem, ?_, ?_⟩
  · rw [hget]
    cases r with
    | none => rfl
    | some v => exact absurd ((hr v).1 rfl) (hnot v)
  · rw [hhas]
    cases b with
    | false => rfl
    | true =>
      obtain ⟨v, hv⟩ := hb.1 rfl
      exact absurd hv (hnot v)

/-- Witness for C4: removing a stored key from the table of the `main.js` demonstration. -/
theorem remove_then_get_has_witness :
    Reachable (HashMap.after (demoPairs.map (fun kv => Call.set kv.1 kv.2))) ∧
    ∃ m1 removed,
      (HashMap.after (demoPairs.map (fun kv => Call.set kv.1 kv.2))).remove "dog"
        = some (m1, removed) ∧
      m1.get "dog" = some none ∧ m1.has "dog" = some false :=
  ⟨reachable_after _, remove_then_get_has _ (reachable_after _) "dog"⟩

/-- C5. On every reachable table `remove(key)` returns the boolean that `has(key)` returned just
before; when it is `true`, `length()` has dropped by exactly one; when it is `false`, `length()`
and `entries()` are what they were. -/
theorem remove_result (m : HashMap) (h : Reachable m) (key : String) :
    ∃ m1 removed es, m.remove key = some (m1, removed) ∧ m.has key = some removed ∧
      m.entries = some es ∧
      (removed = true → m1.length = m.length - 1) ∧
      (removed = false → m1.length = m.length ∧ m1.entries = some es) := by
  obtain ⟨bs, hinv, _⟩ := h.inv
  obtain ⟨m1, bs1, removed, hrem, hiff, _, _, _, _, hsz, hsame⟩ := hinv.table_remove_spec key
  obtain ⟨b, hhas, hb⟩ := hinv.has_spec key
  refine ⟨m1, removed, allEntries bs, hrem, ?_, hinv.table_entries_eq, ?_, ?_⟩
  · rw [hhas]
    congr 1
    have : (b = true ↔ removed = true) := by rw [hb, hiff]
    cases b <;> cases removed <;> simp_all
  · intro hr
    exact hsz hr
  · intro hr
    rw [hsame hr]
    exact ⟨rfl, hinv.table_entries_eq⟩

/-- Witness for C5: removing a stored key from the table of the `main.js` demonstration. -/
theorem remove_result_witness :
    Reachable (HashMap.after (demoPairs.map (fun kv => Call.set kv.1 kv.2))) ∧
    ∃ m1 removed es,
      (HashMap.after (demoPairs.map (fun kv => Call.set kv.1 kv.2))).remove "kite"
        = some (m1, removed) ∧
      (HashMap.after (demoPairs.map (fun kv => Call.set kv.1 kv.2))).has "kite"
        = some removed ∧
      (HashMap.after (demoPairs.map (fun kv => Call.set kv.1 kv.2))).entries = some es ∧
      (removed = true → m1.length
        = (HashMap.after (demoPairs.map (fun kv => Call.set kv.1 kv.2))).length - 1) ∧
      (removed = false → m1.length
        = (HashMap.after (demoPairs.map (fun kv => Call.set kv.1 kv.2))).length ∧
        m1.entries = some es) :=
  ⟨reachable_after _, remove_result _ (reachable_after _) "kite"⟩

/-- C6. On every reachable table, for a key `k` different from `key`, `get(k)` and `has(k)`
return after `set(key, value)` what they returned before it, whether the capacity stayed or
was doubled by a resize, and likewise after `remove(key)`; all these calls return. -/
theorem other_keys_unchanged (m : HashMap) (h : Reachable m) (key value k : String)
    (hk : k ≠ key) (fuel : Nat) (hfuel : 2 ≤ fuel) :
    ∃ rg rh, m.get k = some rg ∧ m.has k = some rh ∧
      (∃ m1, m.set fuel key value = some m1 ∧ m1.get k = some rg ∧ m1.has k = some rh ∧
        (m1.capacity = m.capacity ∨ m1.capacity = m.capacity * 2)) ∧
      (∃ m2 removed, m.remove key = some (m2, removed) ∧ m2.get k = some rg ∧
        m2.has k = some rh) := by
  obtain ⟨bs, hinv, hl⟩ := h.inv
  obtain ⟨rg, hget, _⟩ := hinv.get_spec k
  obtain ⟨rh, hhas, _⟩ := hinv.has_spec k
  refine ⟨rg, rh, hget, hhas, ?_, ?_⟩
  · obtain ⟨m1, bs1, hset, hinv1, _, hst, hcap⟩ := hinv.set_inv hl fuel hfuel key value
    refine ⟨m1, hset, ?_, ?_, hcap⟩
    · rw [get_eq_of_stored_iff hinv hinv1 (hst k hk), hget]
    · rw [has_eq_of_stored_iff hinv hinv1 (hst k hk), hhas]
  · obtain ⟨m2, bs2, removed, hrem, _, hinv2, hst, _⟩ := hinv.table_remove_spec key
    have hst2 : ∀ v, Stored bs2 k v ↔ Stored bs k v := by
      intro v
      rw [hst k v]
      exact ⟨fun hs => hs.2, fun hs => ⟨hk, hs⟩⟩
    refine ⟨m2, removed, hrem, ?_, ?_⟩
    · rw [get_eq_of_stored_iff hinv hinv2 hst2, hget]
    · rw [has_eq_of_stored_iff hinv hinv2 hst2, hhas]

/-- Witness for C6: the table of the `main.js` demonstration holds 12 keys at capacity 16, so
setting a 13th key crosses the load-factor threshold. -/
theorem other_keys_unchanged_witness :
    Reachable (HashMap.after (demoPairs.map (fun kv => Call.set kv.1 kv.2))) ∧
    "dog" ≠ "moon" ∧ 2 ≤ 2 ∧
    ∃ rg rh,
      (HashMap.after (demoPairs.map (fun kv => Call.set kv.1 kv.2))).get "dog" = some rg ∧
      (HashMap.after (demoPairs.map (fun kv => Call.set kv.1 kv.2))).has "dog" = some rh ∧
      (∃ m1, (HashMap.after (demoPairs.map (fun kv => Call.set kv.1 kv.2))).set 2 "moon" "silver"
          = some m1 ∧ m1.get "dog" = some rg ∧ m1.has "dog" = some rh ∧
        (m1.capacity = (HashMap.after (demoPairs.map (fun kv => Call.set kv.1 kv.2))).capacity ∨
          m1.capacity
            = (HashMap.after (demoPairs.map (fun kv => Call.set kv.1 kv.2))).capacity * 2)) ∧
      (∃ m2 removed,
        (HashMap.after (demoPairs.map (fun kv => Call.set kv.1 kv.2))).remove "moon"
          = some (m2, removed) ∧ m2.get "dog" = some rg ∧ m2.has "dog" = some rh) :=
  ⟨reachable_after _, by decide, le_refl 2,
    other_keys_unchanged _ (reachable_after _) "moon" "silver" "dog" (by decide) 2 (le_refl 2)⟩

/-- C7. For every list of 13 pairs with pairwise distinct keys, building the table from the
first 12 pairs leaves the capacity at 16; the 13th `set` returns and doubles the capacity to 32;
afterwards `length()` is 13 and `get` returns the inserted value for each of the 13 keys. -/
theorem thirteen_inserts (kvs : List (String × String)) (hlen : kvs.length = 13)
    (hnd : (keysOf kvs).Nodup) (fuel : Nat) (hfuel : 2 ≤ fuel) :
    ∃ m12 m13 last, kvs = kvs.take 12 ++ [last] ∧
      HashMap.new fuel (kvs.take 12) = some m12 ∧ m12.capacity = 16 ∧ m12.length = 12 ∧
      m12.set fuel last.1 last.2 = some m13 ∧ HashMap.new fuel kvs = some m13 ∧
      m13.capacity = 32 ∧ m13.length = 13 ∧
      ∀ kv ∈ kvs, m13.get kv.1 = some (some kv.2) := by
  obtain ⟨pre, last, rfl, hpre⟩ : ∃ pre last, kvs = pre ++ [last] ∧ pre.length = 12 := by
    have hd : (kvs.drop 12).length = 1 := by rw [List.length_drop, hlen]
    obtain ⟨last, hlast⟩ := List.length_eq_one.1 hd
    refine ⟨kvs.take 12, last, ?_, by rw [List.length_take, hlen]; rfl⟩
    rw [← hlast, List.take_append_drop]
  have htake : (pre ++ [last]).take 12 = pre := by
    rw [← hpre, List.take_left']
    rfl
  rw [htake]
  simp only [keysOf, List.map_append, List.map_cons, List.map_nil] at hnd
  rw [List.nodup_append] at hnd
  obtain ⟨hndpre, _, hdisj⟩ := hnd
  have hlastnot : last.1 ∉ keysOf pre := fun hm => hdisj hm (List.mem_singleton.2 rfl)
  obtain ⟨m12, bs12, hrun12, hclean12, hcap12, hsize12, hst12⟩ :=
    fold_set_clean fuel (by omega) pre HashMap.empty _ hndpre HashMap.empty_clean
      (fun k _ v => not_stored_replicate _ _ k v)
      (by rw [hpre]; simp [HashMap.empty, DEFAULT_CAPACITY])
  have hcap12' : m12.capacity = 16 := by rw [hcap12]; rfl
  have hsize12' : m12.size = 12 := by rw [hsize12, hpre]; simp [HashMap.empty]
  have hl12 : m12.Loaded := by
    unfold HashMap.Loaded
    rw [hcap12', hsize12']
    norm_num
  obtain ⟨m13, bs13, hset, hclean13, _, hst13, _, hnew, hcap13⟩ :=
    hclean12.set_clean hl12 fuel hfuel last.1 last.2
  have hnotstored : ¬ ∃ v, Stored bs12 last.1 v := by
    rintro ⟨v, hv⟩
    rcases (hst12 last.1 v).1 hv with hs | hm
    · exact not_stored_replicate _ _ _ _ hs
    · exact hlastnot ((mem_keysOf_iff _ _).2 ⟨v, hm⟩)
  have hsize13 : m13.size = 13 := by rw [hnew hnotstored, hsize12']; norm_num
  refine ⟨m12, m13, last, rfl, hrun12, hcap12', hsize12', hset, ?_, ?_, hsize13, ?_⟩
  · unfold HashMap.new
    rw [List.foldlM_append, hrun12]
    simp only [Option.bind_eq_bind, Option.some_bind, List.foldlM_cons, List.foldlM_nil, hset]
    rfl
  · rw [hcap13, hcap12', hsize13]
    norm_num
  · intro kv hkv
    have hstored : Stored bs13 kv.1 kv.2 := by
      rw [hst13]
      rcases List.mem_append.1 hkv with hm | hm
      · right
        refine ⟨?_, (hst12 kv.1 kv.2).2 (Or.inr hm)⟩
        intro e
        exact hlastnot (e ▸ List.mem_map.2 ⟨kv, hm, rfl⟩)
      · left
        rw [List.mem_singleton.1 hm]
        exact ⟨rfl, rfl⟩
    obtain ⟨r, hget, hr⟩ := hclean13.inv.get_spec kv.1
    rw [hget, (hr kv.2).2 hstored]

/-- Witness for C7: the 12 pairs of the `main.js` demonstration and a 13th pair. -/
theorem thirteen_inserts_witness :
    (demoPairs ++ [("moon", "silver")]).length = 13 ∧
    (keysOf (demoPairs ++ [("moon", "silver")])).Nodup ∧ 2 ≤ 2 ∧
    ∃ m12 m13 last,
      demoPairs ++ [("moon", "silver")]
        = (demoPairs ++ [("moon", "silver")]).take 12 ++ [last] ∧
      HashMap.new 2 ((demoPairs ++ [("moon", "silver")]).take 12) = some m12 ∧
      m12.capacity = 16 ∧ m12.length = 12 ∧
      m12.set 2 last.1 last.2 = some m13 ∧
      HashMap.new 2 (demoPairs ++ [("moon", "silver")]) = some m13 ∧
      m13.capacity = 32 ∧ m13.length = 13 ∧
      ∀ kv ∈ demoPairs ++ [("moon", "silver")], m13.get kv.1 = some (some kv.2) :=
  ⟨rfl, by decide, le_refl 2,
    thirteen_inserts (demoPairs ++ [("moon", "silver")]) rfl (by decide) 2 (le_refl 2)⟩

/-- C8. For every list of pairs, `new HashMap(array)` returns a table whose `length()` is the
number of distinct keys of the list and whose `get(k)` is the value of the last pair with key
`k` (the first one in the reversed list), and `null` when no pair has key `k`. -/
theorem constructor_spec (fuel : Nat) (hfuel : 2 ≤ fuel) (array : List (String × String)) :
    ∃ m, HashMap.new fuel array = some m ∧
      m.length = ((keysOf array).dedup.length : Int) ∧
      (∀ k, m.get k = some (valueOf k array.reverse)) ∧
      (∀ k, k ∉ keysOf array → m.get k = some none) := by
  obtain ⟨m, bs, hrun, hclean, _, hst⟩ := HashMap.new_spec fuel hfuel array
  have hget : ∀ k, m.get k = some (valueOf k array.reverse) := by
    intro k
    obtain ⟨r, hget, hr⟩ := hclean.inv.get_spec k
    rw [hget]
    congr 1
    exact option_eq_of_iff (fun v => by rw [hr v, hst k v])
  refine ⟨m, hrun, ?_, hget, ?_⟩
  · have hperm : (keysOf (allEntries bs)).Perm (keysOf array).dedup := by
      rw [List.perm_ext_iff_of_nodup hclean.inv.nodup_allEntries (List.nodup_dedup _)]
      intro k
      rw [List.mem_dedup, mem_keysOf_iff, mem_keysOf_iff]
      constructor
      · rintro ⟨v, hv⟩
        have h1 := (hst k v).1 ((mem_allEntries bs k v).1 hv)
        have h2 : k ∈ keysOf array.reverse := by
          by_contra hno
          rw [(valueOf_eq_none_iff _ k).2 hno] at h1
          cases h1
        rw [mem_keysOf_iff] at h2
        obtain ⟨w, hw⟩ := h2
        exact ⟨w, List.mem_reverse.1 hw⟩
      · rintro ⟨v, hv⟩
        have h2 : k ∈ keysOf array.reverse :=
          (mem_keysOf_iff _ k).2 ⟨v, List.mem_reverse.2 hv⟩
        cases hw : valueOf k array.reverse with
        | none => exact absurd h2 ((valueOf_eq_none_iff _ k).1 hw)
        | some w => exact ⟨w, (mem_allEntries bs k w).2 ((hst k w).2 hw)⟩
    have hlen := hperm.length_eq
    have : (keysOf (allEntries bs)).length = entryCount bs := by
      rw [keysOf, List.length_map, length_allEntries]
    unfold HashMap.length
    rw [hclean.exact, ← this, hlen]
  · intro k hk
    rw [hget k]
    congr 1
    rw [valueOf_eq_none_iff]
    intro hmem
    rw [mem_keysOf_iff] at hmem
    obtain ⟨v, hv⟩ := hmem
    exact hk ((mem_keysOf_iff _ k).2 ⟨v, List.mem_reverse.1 hv⟩)

/-- Witness for C8: the scenario of the specification. -/
theorem constructor_spec_witness :
    2 ≤ 2 ∧ ∃ m, HashMap.new 2 [("apple", "red"), ("banana", "yellow")] = some m ∧
      m.length = ((keysOf [("apple", "red"), ("banana", "yellow")]).dedup.length : Int) ∧
      (∀ k, m.get k
        = some (valueOf k [("apple", "red"), ("banana", "yellow")].reverse)) ∧
      (∀ k, k ∉ keysOf [("apple", "red"), ("banana", "yellow")] → m.get k = some none) :=
  ⟨le_refl 2, constructor_spec 2 (le_refl 2) [("apple", "red"), ("banana", "yellow")]⟩

/-- C9. On every reachable table every bucket answers `keys()`, `HashMap.keys()` is the
concatenation of the buckets' answers, and it has no duplicates: no key is in two chains and no
key is twice in one chain. -/
theorem no_duplicate_keys (m : HashMap) (h : Reachable m) :
    ∃ kss : List (List String),
      List.Forall₂ (fun (b : LinkedList) (ks : List String) => b.keys = some ks) m.buckets kss ∧
      m.keys = some kss.flatten ∧ kss.flatten.Nodup := by
  obtain ⟨bs, hinv, _⟩ := h.inv
  refine ⟨bs.map (fun x => keysOf x.1), ?_, hinv.table_keys_eq, ?_⟩
  · rw [List.forall₂_map_right_iff]
    exact List.Forall₂.imp (fun b x hr => hr.chain_keys_eq) hinv.abs
  · rw [← keysOf_allEntries]
    exact hinv.nodup_allEntries

/-- Witness for C9: the table of the `main.js` demonstration. -/
theorem no_duplicate_keys_witness :
    Reachable (HashMap.after (demoPairs.map (fun kv => Call.set kv.1 kv.2))) ∧
    ∃ kss : List (List String),
      List.Forall₂ (fun (b : LinkedList) (ks : List String) => b.keys = some ks)
        (HashMap.after (demoPairs.map (fun kv => Call.set kv.1 kv.2))).buckets kss ∧
      (HashMap.after (demoPairs.map (fun kv => Call.set kv.1 kv.2))).keys = some kss.flatten ∧
      kss.flatten.Nodup :=
  ⟨reachable_after _, no_duplicate_keys _ (reachable_after _)⟩

/-- C10. On every reachable table every bucket answers `entries()`, every entry of the bucket at
index `i` has a key whose hash (at the current capacity) is `i`, and `get` and `has` find it:
`get(key)` returns its value and `has(key)` returns `true`. -/
theorem entries_in_hashed_bucket (m : HashMap) (h : Reachable m) (i : Nat) (b : LinkedList)
    (hb : m.buckets[i]? = some b) :
    ∃ es, b.entries = some es ∧
      ∀ kv ∈ es, m.hash kv.1 = i ∧ m.get kv.1 = some (some kv.2) ∧ m.has kv.1 = some true := by
  obtain ⟨bs, hinv, _⟩ := h.inv
  obtain ⟨x, hx, hr⟩ := forall₂_getElem hinv.abs i b hb
  refine ⟨x.1, hr.chain_entries_eq, ?_⟩
  intro kv hkv
  have hst : Stored bs kv.1 kv.2 := ⟨i, x, hx, hkv⟩
  obtain ⟨r, hget, hrs⟩ := hinv.get_spec kv.1
  obtain ⟨rb, hhas, hrb⟩ := hinv.has_spec kv.1
  refine ⟨hinv.placed i x hx kv hkv, ?_, ?_⟩
  · rw [hget, (hrs kv.2).2 hst]
  · rw [hhas, hrb.2 ⟨kv.2, hst⟩]

/-- Witness for C10: bucket 1 of the table after `set("a", "1")`. -/
theorem entries_in_hashed_bucket_witness :
    Reachable (HashMap.after [Call.set "a" "1"]) ∧
    (HashMap.after [Call.set "a" "1"]).buckets[1]?
      = some { nodes := [{ key := "a", value := "1", next := none }],
               head := some 0, tail := some 0, size := 1 } ∧
    ∃ es,
      LinkedList.entries
        { nodes := [{ key := "a", value := "1", next := none }],
          head := some 0, tail := some 0, size := 1 } = some es ∧
      ∀ kv ∈ es, (HashMap.after [Call.set "a" "1"]).hash kv.1 = 1 ∧
        (HashMap.after [Call.set "a" "1"]).get kv.1 = some (some kv.2) ∧
        (HashMap.after [Call.set "a" "1"]).has kv.1 = some true :=
  ⟨reachable_after _, rfl,
    entries_in_hashed_bucket _ (reachable_after _) 1 _ rfl⟩

/-- C11 (defect in the code). After 13 `set` calls the capacity is 32; `clear()` then allocates
its bucket array with the capacity held before the call and only afterwards resets `#capacity`:
the table is left with 32 buckets at capacity 16 (and `length()` 0). -/
theorem clear_keeps_grown_bucket_array :
    Reachable (HashMap.after growCalls) ∧ (HashMap.after growCalls).capacity = 32 ∧
    (HashMap.after growCalls).clear.buckets.length = 32 ∧
    (HashMap.after growCalls).clear.capacity = 16 ∧
    (HashMap.after growCalls).clear.length = 0 :=
  ⟨reachable_after _, rfl, rfl, rfl, rfl⟩

/-- C12. For every reachable table and every sequence of calls of public methods, the sequence
returns after `clear()` exactly what it returns on `new HashMap()`: the same value for every
call and the same capacity after every call. -/
theorem clear_behaves_like_fresh (m : HashMap) (h : Reachable m) (fuel : Nat)
    (hfuel : 2 ≤ fuel) (calls : List Method) :
    ∃ t, HashMap.empty.trace fuel calls = some t ∧ m.clear.trace fuel calls = some t := by
  obtain ⟨bs, hinv, _⟩ := h.inv
  obtain ⟨t, ht⟩ := Reachable.trace_returns fuel hfuel calls Reachable.fresh
  refine ⟨t, ht, ?_⟩
  rw [HashMap.clear_eq_padded hinv.cap_pos]
  exact HashMap.padded_trace fuel hfuel calls _ Reachable.fresh ht

/-- Witness for C12: a table grown to capacity 32, and a sequence of calls. -/
theorem clear_behaves_like_fresh_witness :
    Reachable (HashMap.after growCalls) ∧ 2 ≤ 2 ∧
    ∃ t,
      HashMap.empty.trace 2
        [Method.set "a" "1", Method.set "q" "2", Method.get "q", Method.remove "q",
          Method.has "q", Method.length, Method.keys, Method.values, Method.entries]
        = some t ∧
      (HashMap.after growCalls).clear.trace 2
        [Method.set "a" "1", Method.set "q" "2", Method.get "q", Method.remove "q",
          Method.has "q", Method.length, Method.keys, Method.values, Method.entries]
        = some t :=
  ⟨reachable_after _, le_refl 2,
    clear_behaves_like_fresh _ (reachable_after _) 2 (le_refl 2) _⟩

/-- C13. In every reachable table the capacity is `16 * 2 ^ n` for some `n`. -/
theorem capacity_sixteen_times_power_of_two (m : HashMap) (h : Reachable m) :
    ∃ n : Nat, m.capacity = 16 * 2 ^ n := by
  obtain ⟨bs, hinv, _⟩ := h.inv
  exact hinv.cap

/-- Witness for C13: a table grown to capacity 32. -/
theorem capacity_sixteen_times_power_of_two_witness :
    Reachable (HashMap.after growCalls) ∧
    ∃ n : Nat, (HashMap.after growCalls).capacity = 16 * 2 ^ n :=
  ⟨reachable_after _, capacity_sixteen_times_power_of_two _ (reachable_after _)⟩

/-- C14, as stated, fails: on the reachable table with capacity 32 that 13 `set` calls build,
`clear()` returns and leaves capacity 16, which is neither 32 nor 64. -/
theorem capacity_drops_on_clear :
    Reachable (HashMap.after growCalls) ∧ (HashMap.after growCalls).capacity = 32 ∧
    ∃ m1 answer, (HashMap.after growCalls).invoke 2 Method.clear = some (m1, answer) ∧
      m1.capacity = 16 ∧ m1.capacity ≠ (HashMap.after growCalls).capacity ∧
      m1.capacity ≠ 2 * (HashMap.after growCalls).capacity ∧
      m1.capacity < (HashMap.after growCalls).capacity :=
  ⟨reachable_after _, rfl, _, _, rfl, rfl, by decide, by decide, by decide⟩

/-- C14, amended. On every reachable table every call of a public method returns; after a call
other than `clear` the capacity is what it was or exactly double; after `clear` the capacity is
16, which is at most what it was. -/
theorem capacity_after_call (m : HashMap) (h : Reachable m) (fuel : Nat) (hfuel : 2 ≤ fuel)
    (call : Method) :
    ∃ m1 answer, m.invoke fuel call = some (m1, answer) ∧
      (call ≠ Method.clear → m1.capacity = m.capacity ∨ m1.capacity = 2 * m.capacity) ∧
      (call = Method.clear → m1.capacity = 16 ∧ m1.capacity ≤ m.capacity) := by
  obtain ⟨bs, hinv, hl⟩ := h.inv
  obtain ⟨m1, answer, hinvoke, _⟩ := h.invoke_returns fuel hfuel call
  refine ⟨m1, answer, hinvoke, ?_, ?_⟩
  · intro hne
    cases call with
    | set key value =>
      obtain ⟨m2, bs2, hset, _, _, _, hcap⟩ := hinv.set_inv hl fuel hfuel key value
      simp only [HashMap.invoke, hset, Option.map_some', Option.some.injEq,
        Prod.mk.injEq] at hinvoke
      rw [← hinvoke.1]
      rcases hcap with e | e
      · exact Or.inl e
      · exact Or.inr (by rw [e, Nat.mul_comm])
    | get key =>
      simp only [HashMap.invoke, Option.map_eq_some', Prod.mk.injEq] at hinvoke
      obtain ⟨_, _, e, _⟩ := hinvoke
      exact Or.inl (by rw [← e])
    | has key =>
      simp only [HashMap.invoke, Option.map_eq_some', Prod.mk.injEq] at hinvoke
      obtain ⟨_, _, e, _⟩ := hinvoke
      exact Or.inl (by rw [← e])
    | remove key =>
      obtain ⟨m2, bs2, removed, hrem, _, _, _, hcap, _⟩ := hinv.table_remove_spec key
      simp only [HashMap.invoke, hrem, Option.map_some', Option.some.injEq,
        Prod.mk.injEq] at hinvoke
      rw [← hinvoke.1]
      exact Or.inl hcap
    | length =>
      simp only [HashMap.invoke, Option.some.injEq, Prod.mk.injEq] at hinvoke
      exact Or.inl (by rw [← hinvoke.1])
    | clear => exact absurd rfl hne
    | keys =>
      simp only [HashMap.invoke, Option.map_eq_some', Prod.mk.injEq] at hinvoke
      obtain ⟨_, _, e, _⟩ := hinvoke
      exact Or.inl (by rw [← e])
    | values =>
      simp only [HashMap.invoke, Option.map_eq_some', Prod.mk.injEq] at hinvoke
      obtain ⟨_, _, e, _⟩ := hinvoke
      exact Or.inl (by rw [← e])
    | entries =>
      simp only [HashMap.invoke, Option.map_eq_some', Prod.mk.injEq] at hinvoke
      obtain ⟨_, _, e, _⟩ := hinvoke
      exact Or.inl (by rw [← e])
  · intro he
    subst he
    simp only [HashMap.invoke, Option.some.injEq, Prod.mk.injEq] at hinvoke
    rw [← hinvoke.1]
    exact ⟨rfl, hinv.cap_pos⟩

/-- Witness for C14, amended: the 13th `set` call, which doubles the capacity. -/
theorem capacity_after_call_witness :
    Reachable (HashMap.after (demoPairs.map (fun kv => Call.set kv.1 kv.2))) ∧ 2 ≤ 2 ∧
    ∃ m1 answer,
      (HashMap.after (demoPairs.map (fun kv => Call.set kv.1 kv.2))).invoke 2
        (Method.set "moon" "silver") = some (m1, answer) ∧
      (Method.set "moon" "silver" ≠ Method.clear →
        m1.capacity = (HashMap.after (demoPairs.map (fun kv => Call.set kv.1 kv.2))).capacity ∨
        m1.capacity
          = 2 * (HashMap.after (demoPairs.map (fun kv => Call.set kv.1 kv.2))).capacity) ∧
      (Method.set "moon" "silver" = Method.clear →
        m1.capacity = 16 ∧
        m1.capacity
          ≤ (HashMap.after (demoPairs.map (fun kv => Call.set kv.1 kv.2))).capacity) :=
  ⟨reachable_after _, le_refl 2,
    capacity_after_call _ (reachable_after _) 2 (le_refl 2) (Method.set "moon" "silver")⟩

/-- C15. On every reachable table every bucket answers `entries()`; `HashMap.entries()` is the
concatenation of the buckets' answers in bucket order, `keys()` and `values()` are its first and
second components in the same order, a key is in `keys()` exactly when `has` returns `true`
for it, and `get` returns the value paired with it in `entries()`. -/
theorem enumeration_spec (m : HashMap) (h : Reachable m) :
    ∃ ess : List (List (String × String)),
      List.Forall₂ (fun (b : LinkedList) (es : List (String × String)) => b.entries = some es)
        m.buckets ess ∧
      m.entries = some ess.flatten ∧
      m.keys = some (ess.flatten.map Prod.fst) ∧
      m.values = some (ess.flatten.map Prod.snd) ∧
      (∀ k, k ∈ ess.flatten.map Prod.fst ↔ m.has k = some true) ∧
      (∀ k v, (k, v) ∈ ess.flatten → m.get k = some (some v)) := by
  obtain ⟨bs, hinv, _⟩ := h.inv
  have hall : (bs.map (fun x => x.1)).flatten = allEntries bs := by
    simp only [allEntries, List.flatMap_def]
  refine ⟨bs.map (fun x => x.1), ?_, ?_, ?_, ?_, ?_, ?_⟩
  · rw [List.forall₂_map_right_iff]
    exact List.Forall₂.imp (fun b x hr => hr.chain_entries_eq) hinv.abs
  · rw [hall]; exact hinv.table_entries_eq
  · rw [hall, hinv.table_keys_eq, ← keysOf_allEntries]; rfl
  · rw [hall]; exact hinv.table_values_eq
  · intro k
    rw [hall]
    obtain ⟨r, hhas, hr⟩ := hinv.has_spec k
    have hmem : k ∈ (allEntries bs).map Prod.fst ↔ ∃ v, Stored bs k v := by
      have := mem_keysOf_iff (allEntries bs) k
      simp only [keysOf] at this
      rw [this]
      constructor
      · rintro ⟨v, hv⟩; exact ⟨v, (mem_allEntries bs k v).1 hv⟩
      · rintro ⟨v, hv⟩; exact ⟨v, (mem_allEntries bs k v).2 hv⟩
    rw [hmem, ← hr, hhas]
    simp
  · intro k v hkv
    rw [hall] at hkv
    obtain ⟨r, hget, hr⟩ := hinv.get_spec k
    rw [hget, (hr v).2 ((mem_allEntries bs k v).1 hkv)]

/-- Witness for C15: the table of the `main.js` demonstration. -/
theorem enumeration_spec_witness :
    Reachable (HashMap.after (demoPairs.map (fun kv => Call.set kv.1 kv.2))) ∧
    ∃ ess : List (List (String × String)),
      List.Forall₂ (fun (b : LinkedList) (es : List (String × String)) => b.entries = some es)
        (HashMap.after (demoPairs.map (fun kv => Call.set kv.1 kv.2))).buckets ess ∧
      (HashMap.after (demoPairs.map (fun kv => Call.set kv.1 kv.2))).entries
        = some ess.flatten ∧
      (HashMap.after (demoPairs.map (fun kv => Call.set kv.1 kv.2))).keys
        = some (ess.flatten.map Prod.fst) ∧
      (HashMap.after (demoPairs.map (fun kv => Call.set kv.1 kv.2))).values
        = some (ess.flatten.map Prod.snd) ∧
      (∀ k, k ∈ ess.flatten.map Prod.fst ↔
        (HashMap.after (demoPairs.map (fun kv => Call.set kv.1 kv.2))).has k = some true) ∧
      (∀ k v, (k, v) ∈ ess.flatten →
        (HashMap.after (demoPairs.map (fun kv => Call.set kv.1 kv.2))).get k
          = some (some v)) :=
  ⟨reachable_after _, enumeration_spec _ (reachable_after _)⟩

/-- C16 (defect in the code). The list after `set("a", "1")`, `set("q", "2")`, `remove("q")`
is reachable and does not hold the key `"1"`; `set("1", "x")` returns and raises `size` from 1
to 2, but `entries()` is `[["a", "1"]]` before and after the call: the new node is linked
behind the unlinked node that `#tail` still refers to. -/
theorem chain_set_misses_after_tail_removal :
    ChainReachable
      { nodes := [{ key := "a", value := "1", next := none },
                  { key := "q", value := "2", next := none }],
        head := some 0, tail := some 1, size := 1 } ∧
    LinkedList.has
      { nodes := [{ key := "a", value := "1", next := none },
                  { key := "q", value := "2", next := none }],
        head := some 0, tail := some 1, size := 1 } "1" = some false ∧
    LinkedList.entries
      { nodes := [{ key := "a", value := "1", next := none },
                  { key := "q", value := "2", next := none }],
        head := some 0, tail := some 1, size := 1 } = some [("a", "1")] ∧
    ∃ l1,
      LinkedList.set
        { nodes := [{ key := "a", value := "1", next := none },
                    { key := "q", value := "2", next := none }],
          head := some 0, tail := some 1, size := 1 } "1" "x" = some l1 ∧
      l1.entries = some [("a", "1")] ∧ l1.size = 2 := by
  refine ⟨?_, rfl, rfl, _, rfl, rfl, rfl⟩
  have h1 : LinkedList.empty.set "a" "1"
      = some { nodes := [{ key := "a", value := "1", next := none }],
               head := some 0, tail := some 0, size := 1 } := rfl
  have h2 : LinkedList.set
      { nodes := [{ key := "a", value := "1", next := none }],
        head := some 0, tail := some 0, size := 1 } "q" "2"
      = some { nodes := [{ key := "a", value := "1", next := some 1 },
                         { key := "q", value := "2", next := none }],
               head := some 0, tail := some 1, size := 2 } := rfl
  have h3 : LinkedList.remove
      { nodes := [{ key := "a", value := "1", next := some 1 },
                  { key := "q", value := "2", next := none }],
        head := some 0, tail := some 1, size := 2 } "q"
      = some ({ nodes := [{ key := "a", value := "1", next := none },
                          { key := "q", value := "2", next := none }],
                head := some 0, tail := some 1, size := 1 }, true) := rfl
  exact ChainReachable.remove (ChainReachable.set (ChainReachable.set ChainReachable.fresh h1) h2) h3

/-- C17, as stated, fails: there is no key and no capacity `16 * 2 ^ n` for which the hash
computed with the modulus at every character differs from the polynomial sum reduced once at
the end. -/
theorem no_key_separates_the_two_hashes :
    ¬ ∃ (key : String) (n : Nat),
        (HashMap.blank (16 * 2 ^ n)).hash key ≠ hashAtEnd (16 * 2 ^ n) key := by
  rintro ⟨key, n, hne⟩
  exact hne (HashMap.hash_eq_polynomial (HashMap.blank (16 * 2 ^ n)) key)

/-- C17, amended. For every key and every table, the hash computed with the modulus at every
character is the polynomial sum of `31 ^ (len - 1 - i) * code i` reduced once at the end by the
capacity (over exact integers): the same bucket index. -/
theorem stepwise_hash_is_polynomial_hash (m : HashMap) (key : String) :
    m.hash key = hashAtEnd m.capacity key :=
  HashMap.hash_eq_polynomial m key

/-- C18. On every reachable table and for every key (the empty string included) the hash is
below the capacity, the capacity is at most the number of buckets, and the bucket with the
hash as index exists. -/
theorem bucket_lookup_in_range (m : HashMap) (h : Reachable m) (key : String) :
    m.hash key < m.capacity ∧ m.capacity ≤ m.buckets.length ∧
      ∃ bucket, m.buckets[m.hash key]? = some bucket := by
  obtain ⟨bs, hinv, _⟩ := h.inv
  obtain ⟨b, _, hb, _⟩ := hinv.bucket key
  exact ⟨m.hash_lt key (by have := hinv.cap_pos; omega), hinv.len, b, hb⟩

/-- Witness for C18: the empty key on a table that was grown to capacity 32 and cleared. -/
theorem bucket_lookup_in_range_witness :
    Reachable (HashMap.after (growCalls ++ [Call.clear])) ∧
    (HashMap.after (growCalls ++ [Call.clear])).hash ""
        < (HashMap.after (growCalls ++ [Call.clear])).capacity ∧
      (HashMap.after (growCalls ++ [Call.clear])).capacity
        ≤ (HashMap.after (growCalls ++ [Call.clear])).buckets.length ∧
      ∃ bucket,
        (HashMap.after (growCalls ++ [Call.clear])).buckets[
          (HashMap.after (growCalls ++ [Call.clear])).hash ""]? = some bucket :=
  ⟨reachable_after _, bucket_lookup_in_range _ (reachable_after _) ""⟩

/-- C19. On every reachable table `0 ≤ size` and `4 * size ≤ 3 * capacity`; every call of a
public method returns, and the table after it satisfies the same bounds. -/
theorem load_factor_bound (m : HashMap) (h : Reachable m) (fuel : Nat) (hfuel : 2 ≤ fuel)
    (call : Method) :
    (0 ≤ m.size ∧ 4 * m.size ≤ 3 * (m.capacity : Int)) ∧
    ∃ m1 answer, m.invoke fuel call = some (m1, answer) ∧
      0 ≤ m1.size ∧ 4 * m1.size ≤ 3 * (m1.capacity : Int) := by
  have key : ∀ {m0 : HashMap}, Reachable m0 →
      0 ≤ m0.size ∧ 4 * m0.size ≤ 3 * (m0.capacity : Int) := by
    intro m0 h0
    obtain ⟨bs, hinv, hl⟩ := h0.inv
    have := hinv.count
    exact ⟨by omega, hl⟩
  obtain ⟨m1, answer, hinvoke, h1⟩ := h.invoke_returns fuel hfuel call
  exact ⟨key h, m1, answer, hinvoke, key h1⟩

/-- Witness for C19: the 13th `set` call, which exceeds the bound before the resize. -/
theorem load_factor_bound_witness :
    Reachable (HashMap.after (demoPairs.map (fun kv => Call.set kv.1 kv.2))) ∧ 2 ≤ 2 ∧
    (0 ≤ (HashMap.after (demoPairs.map (fun kv => Call.set kv.1 kv.2))).size ∧
      4 * (HashMap.after (demoPairs.map (fun kv => Call.set kv.1 kv.2))).size
        ≤ 3 * ((HashMap.after (demoPairs.map (fun kv => Call.set kv.1 kv.2))).capacity : Int)) ∧
    ∃ m1 answer,
      (HashMap.after (demoPairs.map (fun kv => Call.set kv.1 kv.2))).invoke 2
        (Method.set "moon" "silver") = some (m1, answer) ∧
      0 ≤ m1.size ∧ 4 * m1.size ≤ 3 * (m1.capacity : Int) :=
  ⟨reachable_after _, le_refl 2,
    load_factor_bound _ (reachable_after _) 2 (le_refl 2) (Method.set "moon" "silver")⟩

/-- C20. On every reachable table `set(key, value)` returns, and two levels of `set` calls are
enough: the call has the same result under every nesting budget of at least 2, that is, the
`set` calls made by `#resize` return without calling `#resize` again. The capacity is kept or
doubled once, and the load-factor bound holds afterwards. -/
theorem set_returns_within_two_levels (m : HashMap) (h : Reachable m) (key value : String) :
    ∃ m1, (∀ fuel, 2 ≤ fuel → m.set fuel key value = some m1) ∧
      (m1.capacity = m.capacity ∨ m1.capacity = m.capacity * 2) ∧
      4 * m1.size ≤ 3 * (m1.capacity : Int) := by
  obtain ⟨bs, hinv, hl⟩ := h.inv
  obtain ⟨m1, bs1, hset, _, hl1, _, hcap⟩ := hinv.set_inv hl 2 (le_refl 2) key value
  refine ⟨m1, ?_, hcap, hl1⟩
  intro fuel hfuel
  have := HashMap.set_mono_add 2 (fuel - 2) m key value m1 hset
  rwa [Nat.add_sub_cancel' hfuel] at this

/-- Witness for C20: the 13th `set` call on the table of the `main.js` demonstration. -/
theorem set_returns_within_two_levels_witness :
    Reachable (HashMap.after (demoPairs.map (fun kv => Call.set kv.1 kv.2))) ∧
    ∃ m1,
      (∀ fuel, 2 ≤ fuel →
        (HashMap.after (demoPairs.map (fun kv => Call.set kv.1 kv.2))).set fuel "moon" "silver"
          = some m1) ∧
      (m1.capacity = (HashMap.after (demoPairs.map (fun kv => Call.set kv.1 kv.2))).capacity ∨
        m1.capacity
          = (HashMap.after (demoPairs.map (fun kv => Call.set kv.1 kv.2))).capacity * 2) ∧
      4 * m1.size ≤ 3 * (m1.capacity : Int) :=
  ⟨reachable_after _, set_returns_within_two_levels _ (reachable_after _) "moon" "silver"⟩

end OdinHashMap
